import Mathlib

/-!
Verification of the OAuth 2.1 authentication core of the
youtube-music-mcp-server repository against its natural-language
specification.

The Python sources are shallowly embedded: Python `str` values become
`List Char`, `bytes` become `List Nat` with every element below 256,
`datetime` values become integer numbers of seconds (`Int`), and
functions that can raise become `Except`-valued functions whose error
type names the exception that escapes.  Stateful components
(`RateLimiter`, `SessionManager`) are embedded as explicit
state-passing functions over record states; the in-process dictionaries
they mutate become association lists.

Embedded components and their source files:
  * `PKCEChallenge`, `OAuthToken`, `UserSession`
      from `src/ytmusic_server/models/auth.py`;
  * `RateLimiter.check_rate_limit`
      from `src/ytmusic_server/ytmusic/rate_limiter.py`;
  * `OAuthManager.refresh_token` (with its tenacity retry decorator)
      from `src/ytmusic_server/auth/oauth_manager.py`;
  * `SessionManager.delete_session` / `check_rate_limit` over the
      memory storage backend
      from `src/ytmusic_server/auth/session_manager.py` and
      `src/ytmusic_server/auth/token_storage.py`;
  * `SecurityValidator.validate_ip_address` / `validate_session_id`
      from `src/ytmusic_server/security/validators.py`;
  * `EncryptionManager.encrypt` / `decrypt`
      from `src/ytmusic_server/security/encryption.py`.

Python standard-library primitives the sources call (`base64`,
`hashlib.sha256`, `json.dumps` / `json.loads`, `str.encode('utf-8')`,
`ipaddress.ip_address`, `secrets.token_urlsafe`) are embedded
executably below, following the documented CPython behaviour.  The
external `cryptography.fernet.Fernet` cipher is the one component kept
abstract: it is a parameter satisfying its documented round-trip law.
-/

/-! ## Bytes, characters, and shared helpers -/

/-- The left brace character, kept out of string literals. -/
def lbraceChar : Char := Char.ofNat 123

/-- The right brace character, kept out of string literals. -/
def rbraceChar : Char := Char.ofNat 125

/-! ## Base64 (CPython `base64` module)

`base64.b64encode` / `base64.urlsafe_b64encode` emit 4 alphabet
characters per 3 input bytes, padding a final group of 1 or 2 bytes
with `==` or `=`.  `base64.b64decode` maps each alphabet character
back to its 6-bit value and drops the unused low bits of a final
partial group; it rejects input whose length is not a multiple of 4
("incorrect padding").  The decoder below covers inputs made of
alphabet characters followed by `=` padding, which is the shape of
every string the embedded code feeds it. -/

/-- RFC 4648 standard alphabet, used by `base64.b64encode`. -/
def stdB64Alphabet : List Char :=
  "ABCDEFGHIJKLMNOPQRSTUVWXYZabcdefghijklmnopqrstuvwxyz0123456789+/".toList

/-- RFC 4648 URL-safe alphabet, used by `base64.urlsafe_b64encode`. -/
def urlB64Alphabet : List Char :=
  "ABCDEFGHIJKLMNOPQRSTUVWXYZabcdefghijklmnopqrstuvwxyz0123456789-_".toList

/-- The alphabet character for a 6-bit value. -/
def b64Char (alpha : List Char) (n : Nat) : Char := alpha.getD n 'A'

/-- Base64 encoding over a given alphabet, with `=` padding. -/
def b64EncodeWith (alpha : List Char) : List Nat → List Char
  | b1 :: b2 :: b3 :: rest =>
      b64Char alpha (b1 / 4) :: b64Char alpha (b1 % 4 * 16 + b2 / 16) ::
      b64Char alpha (b2 % 16 * 4 + b3 / 64) :: b64Char alpha (b3 % 64) ::
      b64EncodeWith alpha rest
  | [b1, b2] =>
      [b64Char alpha (b1 / 4), b64Char alpha (b1 % 4 * 16 + b2 / 16),
       b64Char alpha (b2 % 16 * 4), '=']
  | [b1] =>
      [b64Char alpha (b1 / 4), b64Char alpha (b1 % 4 * 16), '=', '=']
  | [] => []

/-- `base64.b64encode` on bytes, as a character list. -/
def b64Encode (bs : List Nat) : List Char := b64EncodeWith stdB64Alphabet bs

/-- `base64.urlsafe_b64encode` on bytes, as a character list. -/
def urlsafeB64Encode (bs : List Nat) : List Char := b64EncodeWith urlB64Alphabet bs

/-- Python `str.rstrip('=')`: remove trailing `=` characters. -/
def rstripEq (s : List Char) : List Char :=
  (s.reverse.dropWhile (fun c => c = '=')).reverse

/-- The 6-bit value of a standard-alphabet character, if any. -/
def stdB64Val (c : Char) : Option Nat :=
  stdB64Alphabet.findIdx? (fun a => a = c)

/-- The padding character test. -/
def isPadChar (c : Char) : Bool := c = '='

/-- A character that is not padding. -/
def notPadChar (c : Char) : Bool := !isPadChar c

/-- The 6-bit values of a run of alphabet characters, or `none` when a
character is outside the alphabet. -/
def b64Vals : List Char → Option (List Nat)
  | [] => some []
  | c :: t =>
    match stdB64Val c, b64Vals t with
    | some v, some vs => some (v :: vs)
    | _, _ => none

/-- Decode a run of 6-bit values into bytes, dropping the unused low
bits of a final group of 2 or 3 values; a lone trailing value is
invalid, exactly as in `binascii.a2b_base64`. -/
def b64DecodeGroups : List Nat → Option (List Nat)
  | v1 :: v2 :: v3 :: v4 :: rest =>
      (b64DecodeGroups rest).map (fun bs =>
        (v1 * 4 + v2 / 16) :: (v2 % 16 * 16 + v3 / 4) :: (v3 % 4 * 64 + v4) :: bs)
  | [v1, v2, v3] => some [v1 * 4 + v2 / 16, v2 % 16 * 16 + v3 / 4]
  | [v1, v2] => some [v1 * 4 + v2 / 16]
  | [_] => none
  | [] => some []

/-- `base64.b64decode` on inputs of alphabet characters plus trailing
`=` padding: total length must be a multiple of 4, every character
before the padding must be in the alphabet. -/
def b64Decode (s : List Char) : Option (List Nat) :=
  if s.length % 4 ≠ 0 then none
  else
    let body := s.takeWhile notPadChar
    let pad := s.dropWhile notPadChar
    if pad.all isPadChar ∧ pad.length ≤ 2 then
      match b64Vals body with
      | some vals => b64DecodeGroups vals
      | none => none
    else none

/-! ## UTF-8 (Python `str.encode('utf-8')` / `bytes.decode('utf-8')`) -/

/-- UTF-8 encoding of one scalar value. -/
def utf8EncodeChar (c : Char) : List Nat :=
  let n := c.toNat
  if n < 0x80 then [n]
  else if n < 0x800 then [0xC0 + n / 64, 0x80 + n % 64]
  else if n < 0x10000 then [0xE0 + n / 4096, 0x80 + n / 64 % 64, 0x80 + n % 64]
  else [0xF0 + n / 262144, 0x80 + n / 4096 % 64, 0x80 + n / 64 % 64, 0x80 + n % 64]

/-- Python `str.encode('utf-8')`. -/
def utf8Encode (s : List Char) : List Nat := (s.map utf8EncodeChar).flatten

/-- A UTF-8 continuation byte. -/
def utf8Cont (b : Nat) : Bool := decide (0x80 ≤ b ∧ b ≤ 0xBF)

/-- A valid 2-byte sequence start and continuation. -/
def utf8Two (b1 b2 : Nat) : Bool := decide (0xC2 ≤ b1 ∧ b1 ≤ 0xDF) && utf8Cont b2

/-- A valid 3-byte sequence (overlong and surrogate forms excluded,
as CPython's strict decoder does). -/
def utf8Three (b1 b2 b3 : Nat) : Bool :=
  decide (0xE0 ≤ b1 ∧ b1 ≤ 0xEF) &&
  (if b1 = 0xE0 then decide (0xA0 ≤ b2 ∧ b2 ≤ 0xBF)
   else if b1 = 0xED then decide (0x80 ≤ b2 ∧ b2 ≤ 0x9F)
   else utf8Cont b2) &&
  utf8Cont b3

/-- A valid 4-byte sequence (overlong and beyond-U+10FFFF forms
excluded). -/
def utf8Four (b1 b2 b3 b4 : Nat) : Bool :=
  decide (0xF0 ≤ b1 ∧ b1 ≤ 0xF4) &&
  (if b1 = 0xF0 then decide (0x90 ≤ b2 ∧ b2 ≤ 0xBF)
   else if b1 = 0xF4 then decide (0x80 ≤ b2 ∧ b2 ≤ 0x8F)
   else utf8Cont b2) &&
  utf8Cont b3 && utf8Cont b4

/-- The scalar of a 2-byte sequence. -/
def utf8Char2 (b1 b2 : Nat) : Char := Char.ofNat ((b1 - 0xC0) * 64 + (b2 - 0x80))

/-- The scalar of a 3-byte sequence. -/
def utf8Char3 (b1 b2 b3 : Nat) : Char :=
  Char.ofNat ((b1 - 0xE0) * 4096 + (b2 - 0x80) * 64 + (b3 - 0x80))

/-- The scalar of a 4-byte sequence. -/
def utf8Char4 (b1 b2 b3 b4 : Nat) : Char :=
  Char.ofNat ((b1 - 0xF0) * 262144 + (b2 - 0x80) * 4096 + (b3 - 0x80) * 64 + (b4 - 0x80))

/-- Python `bytes.decode('utf-8')` (strict): rejects overlong forms,
surrogates and out-of-range sequences, as CPython does. -/
def utf8Decode : List Nat → Option (List Char)
  | [] => some []
  | b1 :: rest =>
    if b1 < 0x80 then (utf8Decode rest).map (fun cs => Char.ofNat b1 :: cs)
    else
      match rest with
      | [] => none
      | b2 :: rest2 =>
        if utf8Two b1 b2 then (utf8Decode rest2).map (fun cs => utf8Char2 b1 b2 :: cs)
        else
          match rest2 with
          | [] => none
          | b3 :: rest3 =>
            if utf8Three b1 b2 b3 then
              (utf8Decode rest3).map (fun cs => utf8Char3 b1 b2 b3 :: cs)
            else
              match rest3 with
              | [] => none
              | b4 :: rest4 =>
                if utf8Four b1 b2 b3 b4 then
                  (utf8Decode rest4).map (fun cs => utf8Char4 b1 b2 b3 b4 :: cs)
                else none

/-! ## SHA-256 (CPython `hashlib.sha256`), FIPS 180-4 over byte strings -/

/-- Truncation to a 32-bit word. -/
def w32 (n : Nat) : Nat := n % 2 ^ 32

/-- Right-rotation of a 32-bit word. -/
def rotr32 (x k : Nat) : Nat := w32 (x / 2 ^ k + x % 2 ^ k * 2 ^ (32 - k))

/-- Bitwise complement of a 32-bit word. -/
def not32 (x : Nat) : Nat := Nat.xor x 0xFFFFFFFF

/-- The 64 SHA-256 round constants. -/
def sha256K : List Nat :=
  [1116352408, 1899447441, 3049323471, 3921009573, 961987163, 1508970993,
   2453635748, 2870763221, 3624381080, 310598401, 607225278, 1426881987,
   1925078388, 2162078206, 2614888103, 3248222580, 3835390401, 4022224774,
   264347078, 604807628, 770255983, 1249150122, 1555081692, 1996064986,
   2554220882, 2821834349, 2952996808, 3210313671, 3336571891, 3584528711,
   113926993, 338241895, 666307205, 773529912, 1294757372, 1396182291,
   1695183700, 1986661051, 2177026350, 2456956037, 2730485921, 2820302411,
   3259730800, 3345764771, 3516065817, 3600352804, 4094571909, 275423344,
   430227734, 506948616, 659060556, 883997877, 958139571, 1322822218,
   1537002063, 1747873779, 1955562222, 2024104815, 2227730452, 2361852424,
   2428436474, 2756734187, 3204031479, 3329325298]

/-- The SHA-256 initial hash value. -/
def sha256H0 : List Nat :=
  [1779033703, 3144134277, 1013904242, 2773480762, 1359893119, 2600822924,
   528734635, 1541459225]

/-- Big-endian 8-byte encoding of a length in bits. -/
def be64 (n : Nat) : List Nat :=
  [n / 2 ^ 56 % 256, n / 2 ^ 48 % 256, n / 2 ^ 40 % 256, n / 2 ^ 32 % 256,
   n / 2 ^ 24 % 256, n / 2 ^ 16 % 256, n / 2 ^ 8 % 256, n % 256]

/-- Big-endian 4-byte encoding of a 32-bit word. -/
def be32 (n : Nat) : List Nat :=
  [n / 2 ^ 24 % 256, n / 2 ^ 16 % 256, n / 2 ^ 8 % 256, n % 256]

/-- Merkle-Damgard padding: a `0x80` byte, zeros to 56 mod 64, then the
message bit length as 8 big-endian bytes. -/
def sha256Pad (msg : List Nat) : List Nat :=
  let zeros := (119 - msg.length % 64) % 64
  msg ++ 0x80 :: List.replicate zeros 0 ++ be64 (8 * msg.length)

/-- Bytes to big-endian 32-bit words, four bytes per word. -/
def bytesToWords : List Nat → List Nat
  | b1 :: b2 :: b3 :: b4 :: rest =>
      (b1 * 2 ^ 24 + b2 * 2 ^ 16 + b3 * 2 ^ 8 + b4) :: bytesToWords rest
  | _ => []

/-- Split a word list into 16-word blocks (the padded message is
always a whole number of blocks; a short remainder is dropped). -/
def chunk16 : List Nat → List (List Nat)
  | w0 :: w1 :: w2 :: w3 :: w4 :: w5 :: w6 :: w7 ::
    w8 :: w9 :: w10 :: w11 :: w12 :: w13 :: w14 :: w15 :: rest =>
      [w0, w1, w2, w3, w4, w5, w6, w7, w8, w9, w10, w11, w12, w13, w14, w15] ::
      chunk16 rest
  | _ => []

/-- The small sigma-0 message-schedule function. -/
def ssig0 (x : Nat) : Nat := Nat.xor (Nat.xor (rotr32 x 7) (rotr32 x 18)) (x / 2 ^ 3)

/-- The small sigma-1 message-schedule function. -/
def ssig1 (x : Nat) : Nat := Nat.xor (Nat.xor (rotr32 x 17) (rotr32 x 19)) (x / 2 ^ 10)

/-- The big sigma-0 round function. -/
def bsig0 (x : Nat) : Nat := Nat.xor (Nat.xor (rotr32 x 2) (rotr32 x 13)) (rotr32 x 22)

/-- The big sigma-1 round function. -/
def bsig1 (x : Nat) : Nat := Nat.xor (Nat.xor (rotr32 x 6) (rotr32 x 11)) (rotr32 x 25)

/-- The SHA-256 choice function. -/
def sha256Ch (e f g : Nat) : Nat := Nat.xor (Nat.land e f) (Nat.land (not32 e) g)

/-- The SHA-256 majority function. -/
def sha256Maj (a b c : Nat) : Nat :=
  Nat.xor (Nat.land a b) (Nat.xor (Nat.land a c) (Nat.land b c))

/-- One message-schedule extension step, appending word `w[t]` from
`w[t-2]`, `w[t-7]`, `w[t-15]`, `w[t-16]`. -/
def scheduleStep (w : List Nat) : List Nat :=
  let t := w.length
  w ++ [w32 (ssig1 (w.getD (t - 2) 0) + w.getD (t - 7) 0 +
    ssig0 (w.getD (t - 15) 0) + w.getD (t - 16) 0)]

/-- The full 64-word message schedule of one block. -/
def sha256Schedule (block : List Nat) : List Nat := scheduleStep^[48] block

/-- One compression round on the state `[a, b, c, d, e, f, g, h]`. -/
def sha256Round (st : List Nat) (k w : Nat) : List Nat :=
  match st with
  | [a, b, c, d, e, f, g, h] =>
    let t1 := w32 (h + bsig1 e + sha256Ch e f g + k + w)
    let t2 := w32 (bsig0 a + sha256Maj a b c)
    [w32 (t1 + t2), a, b, c, w32 (d + t1), e, f, g]
  | other => other

/-- Compression of one 16-word block into the running hash. -/
def sha256Compress (h : List Nat) (block : List Nat) : List Nat :=
  let st := ((sha256K).zip (sha256Schedule block)).foldl
    (fun s kw => sha256Round s kw.1 kw.2) h
  (h.zip st).map (fun p => w32 (p.1 + p.2))

/-- `hashlib.sha256(msg).digest()`: the 32-byte SHA-256 digest. -/
def sha256 (msg : List Nat) : List Nat :=
  let blocks := chunk16 (bytesToWords (sha256Pad msg))
  ((blocks.foldl sha256Compress sha256H0).map be32).flatten

/-! ## Data model (`src/ytmusic_server/models/auth.py`) -/

/-- `secrets.token_urlsafe`, parameterised by the random bytes that
`secrets.token_bytes` drew: URL-safe base64 with the `=` padding
stripped. -/
def tokenUrlsafe (randomBytes : List Nat) : List Char :=
  rstripEq (urlsafeB64Encode randomBytes)

/-- The `PKCEChallenge` pydantic model. -/
structure PKCEChallenge where
  code_verifier : List Char
  code_challenge : List Char
  code_challenge_method : List Char
deriving DecidableEq

/-- `PKCEChallenge.generate`, parameterised by the 32 random bytes
drawn by `secrets.token_bytes(32)`. -/
def PKCEChallenge.generate (randomBytes : List Nat) : PKCEChallenge :=
  let code_verifier := rstripEq (urlsafeB64Encode randomBytes)
  let code_challenge := rstripEq (urlsafeB64Encode (sha256 (utf8Encode code_verifier)))
  { code_verifier := code_verifier
    code_challenge := code_challenge
    code_challenge_method := "S256".toList }

/-- The challenge the specification prescribes for a verifier:
`base64url(sha256(code_verifier))` with no padding, from the spec
sentences for C1 (to be compared with `PKCEChallenge.generate`). -/
def specPkceChallengeOf (verifier : List Char) : List Char :=
  rstripEq (urlsafeB64Encode (sha256 (utf8Encode verifier)))

/-- The `OAuthToken` pydantic model, datetimes as integer seconds. -/
structure OAuthToken where
  access_token : List Char
  refresh_token : Option (List Char)
  token_type : List Char
  expires_in : Int
  scope : List Char
  created_at : Int
  refreshed_at : Option Int
  refresh_count : Nat
deriving DecidableEq

/-- `OAuthToken.expires_at`: `created_at + timedelta(seconds=expires_in)`. -/
def OAuthToken.expires_at (tok : OAuthToken) : Int :=
  tok.created_at + tok.expires_in

/-- `OAuthToken.is_expired` at the current time `now`:
`datetime.utcnow() >= expires_at - timedelta(seconds=60)`. -/
def OAuthToken.is_expired (tok : OAuthToken) (now : Int) : Bool :=
  decide (now ≥ tok.expires_at - 60)

/-- A token-endpoint JSON response, with the fields
`OAuthToken.refresh` reads (`access_token` and `expires_in` are
required there; the rest fall back to defaults). -/
structure TokenResponse where
  access_token : List Char
  refresh_token : Option (List Char)
  token_type : Option (List Char)
  expires_in : Int
  scope : Option (List Char)
deriving DecidableEq

/-- `OAuthToken.refresh`: a new token built from a refresh response,
keeping the old `refresh_token` when the response omits one and
incrementing `refresh_count`. -/
def OAuthToken.refresh (tok : OAuthToken) (d : TokenResponse) (now : Int) : OAuthToken :=
  { access_token := d.access_token
    refresh_token := match d.refresh_token with
      | some r => some r
      | none => tok.refresh_token
    token_type := d.token_type.getD "Bearer".toList
    expires_in := d.expires_in
    scope := d.scope.getD tok.scope
    created_at := now
    refreshed_at := some now
    refresh_count := tok.refresh_count + 1 }

/-- The `AuthState` enumeration. -/
inductive AuthState where
  | pending
  | authorized
  | expired
  | revoked
deriving DecidableEq

/-- The `UserSession` pydantic model, datetimes as integer seconds. -/
structure UserSession where
  session_id : List Char
  user_id : Option (List Char)
  oauth_token : Option OAuthToken
  state : AuthState
  created_at : Int
  last_accessed : Int
  ip_address : Option (List Char)
  user_agent : Option (List Char)
  pkce_challenge : Option PKCEChallenge
  request_count : Nat
  rate_limit_reset : Int
deriving DecidableEq

/-- `UserSession.create_new`, parameterised by the random bytes of
`secrets.token_urlsafe(32)` and of the PKCE generation, and by the
current time that the pydantic default factories read. -/
def UserSession.create_new (sidBytes pkceBytes : List Nat) (now : Int)
    (ip_address user_agent : Option (List Char)) : UserSession :=
  { session_id := tokenUrlsafe sidBytes
    user_id := none
    oauth_token := none
    state := .pending
    created_at := now
    last_accessed := now
    ip_address := ip_address
    user_agent := user_agent
    pkce_challenge := some (PKCEChallenge.generate pkceBytes)
    request_count := 0
    rate_limit_reset := now + 60 }

/-- `UserSession.is_expired`: `utcnow() > last_accessed + 1 hour`. -/
def UserSession.is_expired (s : UserSession) (now : Int) : Bool :=
  decide (now > s.last_accessed + 3600)

/-- `UserSession.update_access`. -/
def UserSession.update_access (s : UserSession) (now : Int) : UserSession :=
  { s with last_accessed := now }

/-- `UserSession.increment_request_count`: reset the one-minute window
when it has lapsed, otherwise bump the counter. -/
def UserSession.increment_request_count (s : UserSession) (now : Int) : UserSession :=
  if now ≥ s.rate_limit_reset then
    { s with request_count := 1, rate_limit_reset := now + 60 }
  else
    { s with request_count := s.request_count + 1 }

/-- `UserSession.is_rate_limited`: returns the verdict together with
the session, because the Python method mutates the session when the
window has lapsed (count zeroed, window advanced) before answering
false. -/
def UserSession.is_rate_limited (s : UserSession) (max_requests : Nat) (now : Int) :
    Bool × UserSession :=
  if now ≥ s.rate_limit_reset then
    (false, { s with request_count := 0, rate_limit_reset := now + 60 })
  else
    (decide (s.request_count ≥ max_requests), s)

/-! ## Security validators (`src/ytmusic_server/security/validators.py`)

`validate_ip_address` calls the CPython `ipaddress.ip_address` factory.
That factory tries `IPv4Address`, then `IPv6Address`, and on failure
raises a plain `ValueError` — it never lets `AddressValueError` escape.
The parsers below follow `ipaddress._ip_int_from_string` for both
families; scoped IPv6 literals (a `%zone` suffix) are treated as
parse failures, a documented narrowing of the model. -/

/-- Split a character list at a separator, Python `str.split(sep)`. -/
def splitOn (sep : Char) : List Char → List (List Char)
  | [] => [[]]
  | c :: rest =>
    match splitOn sep rest with
    | [] => if c = sep then [[], [c]] else [[c]]
    | g :: gs => if c = sep then [] :: g :: gs else (c :: g) :: gs

/-- The value of a decimal digit. -/
def decDigitVal (c : Char) : Option Nat :=
  if '0' ≤ c ∧ c ≤ '9' then some (c.toNat - 48) else none

/-- The value of a hexadecimal digit (both cases). -/
def hexDigitVal (c : Char) : Option Nat :=
  if '0' ≤ c ∧ c ≤ '9' then some (c.toNat - 48)
  else if 'a' ≤ c ∧ c ≤ 'f' then some (c.toNat - 87)
  else if 'A' ≤ c ∧ c ≤ 'F' then some (c.toNat - 55)
  else none

/-- One dotted-quad octet: 1 to 3 decimal digits, no leading zero,
value at most 255 (CPython `_parse_octet`). -/
def parseOctet (s : List Char) : Option Nat :=
  match s.mapM decDigitVal with
  | none => none
  | some ds =>
    if s.length = 0 ∨ s.length > 3 then none
    else if s.length > 1 ∧ s.headD '0' = '0' then none
    else
      let v := ds.foldl (fun a d => a * 10 + d) 0
      if v ≤ 255 then some v else none

/-- A parsed IP address. -/
inductive IPAddr where
  | v4 (a b c d : Nat)
  | v6 (hextets : List Nat)
deriving DecidableEq

/-- `ipaddress.IPv4Address` parsing: exactly four octets. -/
def parseIPv4 (s : List Char) : Option IPAddr :=
  match splitOn '.' s with
  | [p1, p2, p3, p4] =>
    match parseOctet p1, parseOctet p2, parseOctet p3, parseOctet p4 with
    | some a, some b, some c, some d => some (.v4 a b c d)
    | _, _, _, _ => none
  | _ => none

/-- One IPv6 hextet: 1 to 4 hexadecimal digits. -/
def parseHextet (s : List Char) : Option Nat :=
  match s.mapM hexDigitVal with
  | none => none
  | some ds =>
    if s.length = 0 ∨ s.length > 4 then none
    else some (ds.foldl (fun a d => a * 16 + d) 0)

/-- Pre-parse the colon-separated parts: `none` for an empty part,
`some v` for a hextet; a trailing dotted-quad becomes two hextets. -/
def ipv6Parts (parts : List (List Char)) : Option (List (Option Nat)) :=
  match parts with
  | [] => some []
  | [last] =>
    if last.any (fun c => c = '.') then
      match parseIPv4 last with
      | some (.v4 a b c d) => some [some (a * 256 + b), some (c * 256 + d)]
      | _ => none
    else if last = [] then some [none]
    else (parseHextet last).map (fun v => [some v])
  | p :: rest =>
    match ipv6Parts rest with
    | none => none
    | some ps =>
      if p = [] then some (none :: ps)
      else (parseHextet p).map (fun v => some v :: ps)

/-- The interior positions (all but first and last) holding an empty
part, in order — the candidate `::` markers. -/
def interiorEmpties (ps : List (Option Nat)) : List Nat :=
  (List.range ps.length).filter (fun i =>
    0 < i ∧ i + 1 < ps.length ∧ ps.getD i (some 0) = none)

/-- `ipaddress.IPv6Address` parsing, following
`_ip_int_from_string`: at least three parts, at most one interior
`::`, leading or trailing lone colons only as part of `::`, and
exactly eight hextets once the gap is expanded. -/
def parseIPv6 (s : List Char) : Option IPAddr :=
  if s.any (fun c => c = '%') then none
  else
    let parts := splitOn ':' s
    if parts.length < 3 then none
    else
      match ipv6Parts parts with
      | none => none
      | some ps =>
        if ps.length > 9 then none
        else
          match interiorEmpties ps with
          | [] =>
            if ps.length = 8 ∧ ps.all (fun p => p ≠ none) then
              some (.v6 (ps.map (fun p => p.getD 0)))
            else none
          | [skip] =>
            let partsHi0 := skip
            let partsLo0 := ps.length - skip - 1
            let headEmpty := ps.headD (some 0) = none
            let lastEmpty := ps.getLastD (some 0) = none
            let partsHi := if headEmpty then partsHi0 - 1 else partsHi0
            let partsLo := if lastEmpty then partsLo0 - 1 else partsLo0
            if (headEmpty ∧ partsHi0 - 1 ≠ 0) ∨ (lastEmpty ∧ partsLo0 - 1 ≠ 0) then none
            else if 8 - (partsHi + partsLo) < 1 ∨ partsHi + partsLo ≥ 8 then none
            else
              let hi := (ps.take partsHi).map (fun p => p.getD 0)
              let lo := (ps.drop (ps.length - partsLo)).map (fun p => p.getD 0)
              some (.v6 (hi ++ List.replicate (8 - (partsHi + partsLo)) 0 ++ lo))
          | _ => none

/-- The `ipaddress.ip_address` factory: IPv4 first, then IPv6, a plain
`ValueError` when both fail. -/
def pythonIpAddress (s : List Char) : Except Unit IPAddr :=
  match parseIPv4 s with
  | some a => .ok a
  | none =>
    match parseIPv6 s with
    | some a => .ok a
    | none => .error ()

/-- The reasons `SecurityValidationError` carries in the embedded
validators. -/
inductive SecReason where
  | ipBlocked
  | ipNotAllowed
  | sessionIdRequired
  | invalidSessionIdFormat
deriving DecidableEq

/-- What escapes a validator call: the `SecurityValidationError` its
docstring promises, or an uncaught builtin `ValueError`. -/
inductive ValidatorFailure where
  | securityValidationError (reason : SecReason)
  | uncaughtValueError
deriving DecidableEq

/-- The `SecurityValidator` construction state: the allow- and
block-lists handed to `__init__`. -/
structure SecurityValidator where
  allowed_ips : List (List Char)
  blocked_ips : List (List Char)
deriving DecidableEq

/-- `SecurityValidator.validate_ip_address`: the `try` block parses,
checks the block-list, then the allow-list; its `except` clause
catches only `AddressValueError`, which `ip_address` never raises, so
a malformed address escapes as the factory's plain `ValueError`. -/
def SecurityValidator.validate_ip_address (v : SecurityValidator) (ip_addr : List Char) :
    Except ValidatorFailure Bool :=
  match pythonIpAddress ip_addr with
  | .error _ => .error .uncaughtValueError
  | .ok _ =>
    if v.blocked_ips ≠ [] ∧ ip_addr ∈ v.blocked_ips then
      .error (.securityValidationError .ipBlocked)
    else if v.allowed_ips ≠ [] ∧ ip_addr ∉ v.allowed_ips then
      .error (.securityValidationError .ipNotAllowed)
    else .ok true

/-- The character class of the session-id pattern `[A-Za-z0-9_-]`. -/
def sessionIdChar (c : Char) : Bool :=
  (('A' ≤ c ∧ c ≤ 'Z') ∨ ('a' ≤ c ∧ c ≤ 'z') ∨ ('0' ≤ c ∧ c ≤ '9') ∨ c = '_' ∨ c = '-' : Prop)

/-- `SecurityValidator.validate_session_id`: required, then the
anchored pattern `[A-Za-z0-9_-]` repeated exactly 43 times. -/
def validateSessionId (session_id : List Char) : Except ValidatorFailure Bool :=
  if session_id = [] then .error (.securityValidationError .sessionIdRequired)
  else if session_id.length = 43 ∧ session_id.all sessionIdChar then .ok true
  else .error (.securityValidationError .invalidSessionIdFormat)

-- Equality on `Except` values is decidable componentwise.
deriving instance DecidableEq for Except

/-! ## Rate limiter (`src/ytmusic_server/ytmusic/rate_limiter.py`)

The per-session dictionaries (`defaultdict(deque)` of timestamps,
violation counters) become association lists keyed by the session id;
a missing key reads as the defaultdict default.  `asyncio.sleep`
becomes an explicit list of slept durations in the result. -/

/-- Association-list lookup. -/
def alFind {α : Type} (m : List (List Char × α)) (k : List Char) : Option α :=
  (m.find? (fun p => p.1 = k)).map (fun p => p.2)

/-- Association-list lookup with a default. -/
def alGet {α : Type} (m : List (List Char × α)) (k : List Char) (d : α) : α :=
  (alFind m k).getD d

/-- Association-list update or insert. -/
def alSet {α : Type} (m : List (List Char × α)) (k : List Char) (v : α) :
    List (List Char × α) :=
  if m.any (fun p => p.1 = k) then
    m.map (fun p => if p.1 = k then (k, v) else p)
  else m ++ [(k, v)]

/-- Association-list key removal. -/
def alRemove {α : Type} (m : List (List Char × α)) (k : List Char) :
    List (List Char × α) :=
  m.filter (fun p => p.1 ≠ k)

/-- The constructor arguments of `RateLimiter.__init__`, with the
source defaults. -/
structure RateLimiterConfig where
  requests_per_minute : Nat := 30
  requests_per_hour : Nat := 1000
  burst_limit : Nat := 10
  cleanup_interval : Int := 300
deriving DecidableEq

/-- The mutable state of a `RateLimiter`. -/
structure RateLimiterState where
  minute_requests : List (List Char × List Int) := []
  hour_requests : List (List Char × List Int) := []
  burst_requests : List (List Char × List Int) := []
  violation_counts : List (List Char × Nat) := []
  last_cleanup : Int := 0
deriving DecidableEq

/-- Deque pruning `while requests and requests[0] < cutoff: popleft()`. -/
def pruneOld (ts : List Int) (cutoff : Int) : List Int :=
  ts.dropWhile (fun t => decide (t < cutoff))

/-- The session ids with any recorded timestamps. -/
def rlSessionKeys (st : RateLimiterState) : List (List Char) :=
  ((st.burst_requests.map (fun p => p.1)) ++ (st.minute_requests.map (fun p => p.1)) ++
    (st.hour_requests.map (fun p => p.1))).dedup

/-- `RateLimiter._cleanup_old_entries`: prune every session's three
deques; a session whose three deques all became empty is dropped from
all four maps, its violation counter included. -/
def rlCleanup (st : RateLimiterState) (now : Int) : RateLimiterState :=
  (rlSessionKeys st).foldl (fun acc sid =>
    let b := pruneOld (alGet acc.burst_requests sid []) (now - 10)
    let m := pruneOld (alGet acc.minute_requests sid []) (now - 60)
    let h := pruneOld (alGet acc.hour_requests sid []) (now - 3600)
    if b = [] ∧ m = [] ∧ h = [] then
      { acc with
        burst_requests := alRemove acc.burst_requests sid
        minute_requests := alRemove acc.minute_requests sid
        hour_requests := alRemove acc.hour_requests sid
        violation_counts := alRemove acc.violation_counts sid }
    else
      { acc with
        burst_requests := alSet acc.burst_requests sid b
        minute_requests := alSet acc.minute_requests sid m
        hour_requests := alSet acc.hour_requests sid h }) st

/-- The periodic-cleanup preamble of `check_rate_limit`: run the sweep
when more than `cleanup_interval` seconds have passed. -/
def rlPreStep (cfg : RateLimiterConfig) (st : RateLimiterState) (now : Int) :
    RateLimiterState :=
  if now - st.last_cleanup > cfg.cleanup_interval then
    { rlCleanup st now with last_cleanup := now }
  else st

/-- The `RateLimitExceeded` exception, tagged with which window raised
it; the burst variant records the backoff that was slept first. -/
inductive RateLimitExceeded where
  | burst (backoffSeconds : Nat)
  | minute
  | hour
deriving DecidableEq

/-- `RateLimiter.check_rate_limit`: the returned triple is the Python
return-or-raise outcome, the state after the call, and the list of
`asyncio.sleep` durations the call performed. -/
def RateLimiter.check_rate_limit (cfg : RateLimiterConfig) (st : RateLimiterState)
    (session_id : List Char) (now : Int) :
    Except RateLimitExceeded Bool × RateLimiterState × List Nat :=
  let st0 := rlPreStep cfg st now
  let burstPruned := pruneOld (alGet st0.burst_requests session_id []) (now - 10)
  let st1 := { st0 with burst_requests := alSet st0.burst_requests session_id burstPruned }
  if burstPruned.length ≥ cfg.burst_limit then
    let v := alGet st1.violation_counts session_id 0 + 1
    let st2 := { st1 with violation_counts := alSet st1.violation_counts session_id v }
    let backoff := min 60 (2 ^ min v 6)
    (.error (.burst backoff), st2, [backoff])
  else
    let minutePruned := pruneOld (alGet st1.minute_requests session_id []) (now - 60)
    let st2 := { st1 with minute_requests := alSet st1.minute_requests session_id minutePruned }
    if minutePruned.length ≥ cfg.requests_per_minute then
      let v := alGet st2.violation_counts session_id 0 + 1
      (.error .minute, { st2 with violation_counts := alSet st2.violation_counts session_id v }, [])
    else
      let hourPruned := pruneOld (alGet st2.hour_requests session_id []) (now - 3600)
      let st3 := { st2 with hour_requests := alSet st2.hour_requests session_id hourPruned }
      if hourPruned.length ≥ cfg.requests_per_hour then
        let v := alGet st3.violation_counts session_id 0 + 1
        (.error .hour, { st3 with violation_counts := alSet st3.violation_counts session_id v }, [])
      else
        let st4 := { st3 with
          burst_requests := alSet st3.burst_requests session_id (burstPruned ++ [now])
          minute_requests := alSet st3.minute_requests session_id (minutePruned ++ [now])
          hour_requests := alSet st3.hour_requests session_id (hourPruned ++ [now]) }
        let st5 :=
          match alFind st4.violation_counts session_id with
          | some v => { st4 with violation_counts := alSet st4.violation_counts session_id (v - 1) }
          | none => st4
        (.ok true, st5, [])

/-! ## Session manager (`src/ytmusic_server/auth/session_manager.py`)
over the memory storage backend
(`src/ytmusic_server/auth/token_storage.py`)

`MemoryTokenStorage` keeps session records encrypted; the encryption
and JSON serialisation layer is embedded separately (see the
encryption-manager section) and is a bijection on records by the
cipher round-trip law, so storage is modelled as holding the session
records themselves.  None of its operations raise on the memory
backend: `delete_session` on a missing key is a silent no-op. -/

/-- The memory storage backend state. -/
structure MemoryStorage where
  sessions : List (List Char × UserSession) := []
  tokens : List (List Char × OAuthToken) := []
deriving DecidableEq

/-- `MemoryTokenStorage.store_session`. -/
def MemoryStorage.store_session (st : MemoryStorage) (sid : List Char) (s : UserSession) :
    MemoryStorage :=
  { st with sessions := alSet st.sessions sid s }

/-- `MemoryTokenStorage.get_session`. -/
def MemoryStorage.get_session (st : MemoryStorage) (sid : List Char) : Option UserSession :=
  alFind st.sessions sid

/-- `MemoryTokenStorage.delete_session`: delete if present, silently
do nothing otherwise, never raise. -/
def MemoryStorage.delete_session (st : MemoryStorage) (sid : List Char) : MemoryStorage :=
  { st with sessions := alRemove st.sessions sid }

/-- The `SessionManager` state: the in-memory cache `self._sessions`
plus the storage backend. -/
structure SessionManagerState where
  sessions : List (List Char × UserSession) := []
  storage : MemoryStorage := {}
deriving DecidableEq

/-- `SessionManager._store_session`: write-through to the cache and to
persistent storage (which cannot fail on the memory backend). -/
def SessionManagerState.store_session (st : SessionManagerState) (s : UserSession) :
    SessionManagerState :=
  { sessions := alSet st.sessions s.session_id s
    storage := st.storage.store_session s.session_id s }

/-- `SessionManager.delete_session`: drop the cache entry, then ask
storage to delete; the memory backend cannot raise, so the
`except`-branch `return False` is unreachable and the call returns
`True` whether or not the session existed. -/
def SessionManagerState.delete_session (st : SessionManagerState) (sid : List Char) :
    Bool × SessionManagerState :=
  let st1 := { st with sessions := alRemove st.sessions sid }
  (true, { st1 with storage := st1.storage.delete_session sid })

/-- `SessionManager.get_session`: cache first, then storage; a session
found expired is deleted and reported missing; a live session has its
`last_accessed` touched and is stored back. -/
def SessionManagerState.get_session (st : SessionManagerState) (sid : List Char) (now : Int) :
    Option UserSession × SessionManagerState :=
  match alFind st.sessions sid with
  | some s =>
    if s.is_expired now then
      (none, (st.delete_session sid).2)
    else
      let s1 := s.update_access now
      (some s1, st.store_session s1)
  | none =>
    match st.storage.get_session sid with
    | some data =>
      if data.is_expired now then
        (none, (st.delete_session sid).2)
      else
        let s1 := data.update_access now
        let stC := { st with sessions := alSet st.sessions sid s1 }
        (some s1, stC.store_session s1)
    | none => (none, st)

/-- `SessionManager.check_rate_limit`: look the session up, take `60`
when `max_requests` is `None` or `0` (the Python `or`), ask the
session's own `is_rate_limited`, and on an allow increment the coarse
counter and store the session back.  The cache always reflects the
in-place mutations of the shared session object. -/
def SessionManagerState.check_rate_limit (st : SessionManagerState) (sid : List Char)
    (max_requests : Option Nat) (now : Int) : Bool × SessionManagerState :=
  match st.get_session sid now with
  | (none, st1) => (false, st1)
  | (some s, st1) =>
    let max_req := match max_requests with
      | none => 60
      | some 0 => 60
      | some m => m
    let (limited, s2) := s.is_rate_limited max_req now
    if limited then
      (false, { st1 with sessions := alSet st1.sessions sid s2 })
    else
      let s3 := s2.increment_request_count now
      let stC := { st1 with sessions := alSet st1.sessions sid s3 }
      (true, stC.store_session s3)

/-! ## OAuth manager (`src/ytmusic_server/auth/oauth_manager.py`)

`refresh_token` is decorated with
`@retry(stop=stop_after_attempt(3),
        wait=wait_exponential(multiplier=1, min=2, max=10),
        retry=retry_if_exception_type((httpx.RequestError,
                                       httpx.HTTPStatusError)))`.
The network is an oracle mapping the attempt number to its outcome. -/

/-- What one token-endpoint POST can come back with. -/
inductive HttpOutcome where
  | requestError
  | response (status : Nat) (body : TokenResponse)
deriving DecidableEq

/-- The detail an `OAuthError` carries in the refresh path. -/
inductive OAuthErrorDetail where
  | noRefreshToken
  | httpStatus (status : Nat)
  | network
deriving DecidableEq

/-- The exception types that can cross the decorator boundary. -/
inductive PyExcKind where
  | oauthError (detail : OAuthErrorDetail)
  | httpxRequestError
  | httpxHTTPStatusError
deriving DecidableEq

/-- One un-decorated execution of the `refresh_token` body: no refresh
token is a fatal `OAuthError`; a network failure is caught by
`except httpx.RequestError` and re-raised as `OAuthError`; a non-200
response raises `OAuthError`; a 200 response builds the new token. -/
def refreshAttempt (tok : OAuthToken) (net : HttpOutcome) (now : Int) :
    Except PyExcKind OAuthToken :=
  if tok.refresh_token = none then .error (.oauthError .noRefreshToken)
  else
    match net with
    | .requestError => .error (.oauthError .network)
    | .response status body =>
      if status ≠ 200 then .error (.oauthError (.httpStatus status))
      else .ok (tok.refresh body now)

/-- The decorator's retry predicate:
`retry_if_exception_type((httpx.RequestError, httpx.HTTPStatusError))`. -/
def tenacityRetryPredicate (e : PyExcKind) : Bool :=
  match e with
  | .oauthError _ => false
  | .httpxRequestError => true
  | .httpxHTTPStatusError => true

/-- `wait_exponential(multiplier, min, max)` before the retry that
follows failed attempt `n`. -/
def tenacityWaitExp (multiplier minW maxW n : Nat) : Nat :=
  max minW (min maxW (multiplier * 2 ^ n))

/-- The tenacity retry loop: run the body; retry (after a sleep) only
while the predicate accepts the exception and attempts remain.  The
result also carries the number of attempts made and the sleeps. -/
def tenacityGo {ε α : Type} (retryable : ε → Bool) (wait : Nat → Nat)
    (body : Nat → Except ε α) : Nat → Nat → Except ε α × Nat × List Nat
  | 0, attempt =>
    (match body attempt with
     | .ok a => (.ok a, attempt, [])
     | .error e => (.error e, attempt, []))
  | fuel + 1, attempt =>
    match body attempt with
    | .ok a => (.ok a, attempt, [])
    | .error e =>
      if retryable e then
        let r := tenacityGo retryable wait body fuel (attempt + 1)
        (r.1, r.2.1, wait attempt :: r.2.2)
      else (.error e, attempt, [])

/-- `OAuthManager.refresh_token` as decorated: up to 3 attempts,
exponential wait with multiplier 1 clamped to 2..10 seconds. -/
def OAuthManager.refresh_token (tok : OAuthToken) (net : Nat → HttpOutcome) (now : Int) :
    Except PyExcKind OAuthToken × Nat × List Nat :=
  tenacityGo tenacityRetryPredicate (tenacityWaitExp 1 2 10)
    (fun attempt => refreshAttempt tok (net attempt) now) 2 1

/-! ## JSON (CPython `json.dumps` / `json.loads`)

`json.dumps` is called with its defaults (`ensure_ascii=True`,
separators `", "` and `": "`), so its output is printable ASCII with
every other character escaped; `json.loads` is called on that output.
The model covers JSON values whose numbers are integers and whose
strings stay in the basic multilingual plane: floats and astral-plane
`\u` surrogate pairs are outside the model and parse to `none`. -/

/-- The JSON values exchanged with the encryption layer. -/
inductive Json where
  | null
  | bool (b : Bool)
  | num (n : Int)
  | str (s : List Char)
  | arr (elems : List Json)
  | obj (members : List (List Char × Json))

/-- Decimal digits, fuel-guided so that the recursion is structural;
the fuel `n` always suffices because `n / 10 < n`. -/
def natDigitsAux : Nat → Nat → List Char
  | _, 0 => ['0']
  | 0, n => [Char.ofNat (48 + n % 10)]
  | fuel + 1, n =>
    if n < 10 then [Char.ofNat (48 + n)]
    else natDigitsAux fuel (n / 10) ++ [Char.ofNat (48 + n % 10)]

/-- Decimal digits of a natural number, most significant first. -/
def natDigits (n : Nat) : List Char := natDigitsAux n n

/-- `json.dumps` of a Python `int`. -/
def intDump (i : Int) : List Char :=
  if i < 0 then '-' :: natDigits i.natAbs else natDigits i.natAbs

/-- A lowercase hexadecimal digit. -/
def hexDigChar (n : Nat) : Char :=
  if n < 10 then Char.ofNat (48 + n) else Char.ofNat (87 + n)

/-- Four lowercase hexadecimal digits of a value below `0x10000`. -/
def hex4 (n : Nat) : List Char :=
  [hexDigChar (n / 4096 % 16), hexDigChar (n / 256 % 16),
   hexDigChar (n / 16 % 16), hexDigChar (n % 16)]

/-- The `ensure_ascii` escaping of one character: `"` and `\` get a
backslash, anything outside printable ASCII becomes `\uXXXX`. -/
def escapeChar (c : Char) : List Char :=
  if c = '"' then ['\\', '"']
  else if c = '\\' then ['\\', '\\']
  else if 32 ≤ c.toNat ∧ c.toNat ≤ 126 then [c]
  else '\\' :: 'u' :: hex4 c.toNat

/-- The escaped body of a JSON string literal. -/
def escapeString (s : List Char) : List Char := (s.map escapeChar).flatten

/-- A JSON string literal with its quotes. -/
def dumpString (s : List Char) : List Char := '"' :: escapeString s ++ ['"']

mutual

/-- `json.dumps` with the default separators. -/
def jsonDumps : Json → List Char
  | .null => 'n' :: "ull".toList
  | .bool true => 't' :: "rue".toList
  | .bool false => 'f' :: "alse".toList
  | .num i => intDump i
  | .str s => dumpString s
  | .arr [] => ['[', ']']
  | .arr (v :: vs) => '[' :: (jsonDumps v ++ dumpsArrTail vs) ++ [']']
  | .obj [] => [lbraceChar, rbraceChar]
  | .obj (m :: ms) => lbraceChar :: (dumpMember m ++ dumpsObjTail ms) ++ [rbraceChar]

/-- The `", "`-separated remainder of an array literal. -/
def dumpsArrTail : List Json → List Char
  | [] => []
  | v :: vs => ',' :: ' ' :: (jsonDumps v ++ dumpsArrTail vs)

/-- One `key: value` member. -/
def dumpMember : List Char × Json → List Char
  | (k, v) => dumpString k ++ ':' :: ' ' :: jsonDumps v

/-- The `", "`-separated remainder of an object literal. -/
def dumpsObjTail : List (List Char × Json) → List Char
  | [] => []
  | m :: ms => ',' :: ' ' :: (dumpMember m ++ dumpsObjTail ms)

end

/-- JSON whitespace. -/
def isWsChar (c : Char) : Bool :=
  decide (c = ' ' ∨ c = Char.ofNat 9 ∨ c = Char.ofNat 10 ∨ c = Char.ofNat 13)

/-- Skip insignificant whitespace. -/
def skipWs (s : List Char) : List Char := s.dropWhile isWsChar

/-- A decimal digit. -/
def isDigitChar (c : Char) : Bool := decide ('0' ≤ c ∧ c ≤ '9')

/-- The single-character escapes of the JSON grammar. -/
def unescapeSimple (c : Char) : Option Char :=
  if c = '"' then some '"'
  else if c = '\\' then some '\\'
  else if c = '/' then some '/'
  else if c = 'b' then some (Char.ofNat 8)
  else if c = 'f' then some (Char.ofNat 12)
  else if c = 'n' then some (Char.ofNat 10)
  else if c = 'r' then some (Char.ofNat 13)
  else if c = 't' then some (Char.ofNat 9)
  else none

/-- A `\uXXXX` code is representable when it is not a surrogate; the
surrogate range (and hence astral pairs) is outside the model. -/
def bmpScalar (n : Nat) : Bool := decide (n < 0xD800 ∨ (0xDFFF < n ∧ n < 0x10000))

/-- The body of a string literal after the opening quote (strict mode:
raw control characters are rejected). -/
def parseStringBody : List Char → Option (List Char × List Char)
  | [] => none
  | c :: rest =>
    if c = '"' then some ([], rest)
    else if c = '\\' then
      match rest with
      | [] => none
      | e :: rest2 =>
        if e = 'u' then
          match rest2 with
          | a :: b :: d :: e2 :: rest3 =>
            (match hexDigitVal a, hexDigitVal b, hexDigitVal d, hexDigitVal e2 with
             | some x, some y, some z, some w =>
               let n := ((x * 16 + y) * 16 + z) * 16 + w
               if bmpScalar n then
                 (parseStringBody rest3).map (fun p => (Char.ofNat n :: p.1, p.2))
               else none
             | _, _, _, _ => none)
          | _ => none
        else
          match unescapeSimple e with
          | some u => (parseStringBody rest2).map (fun p => (u :: p.1, p.2))
          | none => none
    else if c.toNat < 32 then none
    else (parseStringBody rest).map (fun p => (c :: p.1, p.2))

/-- The digits of a number token: `0` alone, or a nonzero digit
followed by more digits, as in the `json` module's number regex. -/
def parseNumBody (s : List Char) : Option (Nat × List Char) :=
  match s with
  | [] => none
  | c :: rest =>
    if c = '0' then some (0, rest)
    else if isDigitChar c then
      some ((c :: rest.takeWhile isDigitChar).foldl (fun a d => a * 10 + (d.toNat - 48)) 0,
        rest.dropWhile isDigitChar)
    else none

/-- An integer token; a following `.`, `e` or `E` would make it a
float, which is outside the model. -/
def parseIntTok (s : List Char) : Option (Int × List Char) :=
  let core := match s with
    | [] => none
    | c :: t =>
      if c = '-' then (parseNumBody t).map (fun p => (-(p.1 : Int), p.2))
      else (parseNumBody (c :: t)).map (fun p => ((p.1 : Int), p.2))
  match core with
  | some (n, r) =>
    match r with
    | c :: _ => if c = '.' ∨ c = 'e' ∨ c = 'E' then none else some (n, r)
    | [] => some (n, r)
  | none => none

mutual

/-- `json.loads`-style recursive-descent value parser; the fuel
argument strictly decreases into every sub-parse. -/
def parseValue : Nat → List Char → Option (Json × List Char)
  | 0, _ => none
  | f + 1, s =>
    match skipWs s with
    | [] => none
    | c :: r =>
      if c = 'n' then
        if r.take 3 = "ull".toList then some (.null, r.drop 3) else none
      else if c = 't' then
        if r.take 3 = "rue".toList then some (.bool true, r.drop 3) else none
      else if c = 'f' then
        if r.take 4 = "alse".toList then some (.bool false, r.drop 4) else none
      else if c = '"' then (parseStringBody r).map (fun p => (.str p.1, p.2))
      else if c = '[' then
        match skipWs r with
        | [] => none
        | c2 :: r2 =>
          if c2 = ']' then some (.arr [], r2)
          else
            match parseValue f r with
            | some (v, r3) => parseArrTail f [v] r3
            | none => none
      else if c = lbraceChar then
        match skipWs r with
        | [] => none
        | c2 :: r2 =>
          if c2 = rbraceChar then some (.obj [], r2)
          else
            match parseMember f r with
            | some (m, r3) => parseObjTail f [m] r3
            | none => none
      else (parseIntTok (c :: r)).map (fun p => (.num p.1, p.2))

/-- One `"key": value` member. -/
def parseMember : Nat → List Char → Option ((List Char × Json) × List Char)
  | 0, _ => none
  | f + 1, s =>
    match skipWs s with
    | [] => none
    | c :: r =>
      if c = '"' then
        match parseStringBody r with
        | some (k, r2) =>
          (match skipWs r2 with
           | [] => none
           | c2 :: r3 =>
             if c2 = ':' then
               match parseValue f r3 with
               | some (v, r4) => some ((k, v), r4)
               | none => none
             else none)
        | none => none
      else none

/-- The comma-separated remainder of an array, after its first
element. -/
def parseArrTail : Nat → List Json → List Char → Option (Json × List Char)
  | 0, _, _ => none
  | f + 1, acc, s =>
    match skipWs s with
    | [] => none
    | c :: r =>
      if c = ',' then
        match parseValue f r with
        | some (v, r2) => parseArrTail f (acc ++ [v]) r2
        | none => none
      else if c = ']' then some (.arr acc, r)
      else none

/-- The comma-separated remainder of an object, after its first
member. -/
def parseObjTail : Nat → List (List Char × Json) → List Char →
    Option (Json × List Char)
  | 0, _, _ => none
  | f + 1, acc, s =>
    match skipWs s with
    | [] => none
    | c :: r =>
      if c = ',' then
        match parseMember f r with
        | some (m, r2) => parseObjTail f (acc ++ [m]) r2
        | none => none
      else if c = rbraceChar then some (.obj acc, r)
      else none

end

/-- `json.loads`: parse one value, then require only whitespace to
remain ("Extra data" otherwise). -/
def jsonLoads (s : List Char) : Option Json :=
  match parseValue (s.length + 1) s with
  | some (v, rest) => if skipWs rest = [] then some v else none
  | none => none

mutual

/-- The fuel a `parseValue` call needs for a value (each recursive
descent consumes one unit). -/
def jweight : Json → Nat
  | .null | .bool _ | .num _ | .str _ => 1
  | .arr [] => 1
  | .arr (v :: vs) => 1 + max (jweight v) (jweightArrTail vs)
  | .obj [] => 1
  | .obj (m :: ms) => 1 + max (1 + jweight m.2) (jweightObjTail ms)

/-- The fuel a `parseArrTail` call needs. -/
def jweightArrTail : List Json → Nat
  | [] => 1
  | v :: vs => 1 + max (jweight v) (jweightArrTail vs)

/-- The fuel a `parseObjTail` call needs. -/
def jweightObjTail : List (List Char × Json) → Nat
  | [] => 1
  | m :: ms => 1 + max (1 + jweight m.2) (jweightObjTail ms)

end

mutual

/-- The JSON values inside the model: strings (keys included) stay in
the basic multilingual plane and object keys are distinct, so that the
member list faithfully represents a Python dict. -/
def jsonWF : Json → Bool
  | .null => true
  | .bool _ => true
  | .num _ => true
  | .str s => s.all (fun c => decide (c.toNat < 0x10000))
  | .arr vs => jsonWFList vs
  | .obj ms => jsonWFMembers ms && decide ((ms.map (fun m => m.1)).Nodup)

/-- Well-formedness of every element of an array. -/
def jsonWFList : List Json → Bool
  | [] => true
  | v :: vs => jsonWF v && jsonWFList vs

/-- Well-formedness of every member of an object. -/
def jsonWFMembers : List (List Char × Json) → Bool
  | [] => true
  | m :: ms =>
    m.1.all (fun c => decide (c.toNat < 0x10000)) && jsonWF m.2 && jsonWFMembers ms

end

/-! ## Encryption manager (`src/ytmusic_server/security/encryption.py`)

Modelled from the spec where the source leaves the repository: the
cipher inside `EncryptionManager` is `cryptography.fernet.Fernet`, an
external library.  Under one key, timestamp and IV it is a
deterministic byte transformation whose decryption inverts encryption
and rejects unauthentic tokens with `InvalidToken`; the embedding
keeps it abstract as any encoder/decoder pair satisfying the
round-trip law, and the repository-owned layers around it (JSON
serialisation, UTF-8, the outer `base64.b64encode`/`b64decode`, and
the exception wrapping) are embedded from the source. -/

/-- An abstract deterministic Fernet instance: a byte transformation
(tokens are bytes) whose decryption inverts encryption. -/
structure FernetModel where
  enc : List Nat → List Nat
  dec : List Nat → Option (List Nat)
  enc_bytes : ∀ p, (∀ b ∈ p, b < 256) → ∀ b ∈ enc p, b < 256
  dec_enc : ∀ p, dec (enc p) = some p

/-- A concrete executable instance of `FernetModel` used to evaluate
closed statements (it tags the plaintext with a leading byte; it does
not model Fernet's HMAC authentication, which no theorem below
relies on). -/
def fernetDemo : FernetModel where
  enc := fun p => 0x80 :: p
  dec := fun t =>
    match t with
    | 128 :: p => some p
    | _ => none
  enc_bytes := fun p hp b hb => by
    rcases List.mem_cons.mp hb with rfl | hmem
    · omega
    · exact hp b hmem
  dec_enc := fun _ => rfl

/-- What `EncryptionManager.encrypt` accepts: raw text or a structured
value (`str | dict` in the source signature). -/
inductive PyData where
  | str (s : List Char)
  | json (j : Json)

/-- `EncryptionManager.encrypt`: serialise non-string data with
`json.dumps`, encode to UTF-8, encrypt, and base64-encode the token. -/
def EncryptionManager.encrypt (fm : FernetModel) (data : PyData) : List Char :=
  let plaintext := match data with
    | .str s => s
    | .json j => jsonDumps j
  b64Encode (fm.enc (utf8Encode plaintext))

/-- Every failure inside `decrypt` — base64, cipher, UTF-8 or JSON —
is re-raised as `EncryptionError`. -/
inductive EncryptionFailure where
  | encryptionError
deriving DecidableEq

/-- `EncryptionManager.decrypt`: base64-decode, decrypt, decode UTF-8,
and when `return_json` is set parse the plaintext as JSON, turning a
parse failure into an `EncryptionError` as well. -/
def EncryptionManager.decrypt (fm : FernetModel) (encrypted_data : List Char)
    (return_json : Bool) : Except EncryptionFailure PyData :=
  match b64Decode encrypted_data with
  | none => .error .encryptionError
  | some token =>
    match fm.dec token with
    | none => .error .encryptionError
    | some ptBytes =>
      match utf8Decode ptBytes with
      | none => .error .encryptionError
      | some plaintext =>
        if return_json then
          match jsonLoads plaintext with
          | some j => .ok (.json j)
          | none => .error .encryptionError
        else .ok (.str plaintext)

/-! ## Auxiliary definitions used by the statements below -/

/-- What may legally follow a serialised number so that the greedy
digit scan stops: end of input, or a character that is neither a digit
nor a float continuation. -/
def numBoundary : List Char → Prop
  | [] => True
  | c :: _ => isDigitChar c = false ∧ c ≠ '.' ∧ c ≠ 'e' ∧ c ≠ 'E'

/-- The 6-bit groups that base64 encoding emits (padding aside). -/
def b64Sextets : List Nat → List Nat
  | b1 :: b2 :: b3 :: rest =>
      b1 / 4 :: (b1 % 4 * 16 + b2 / 16) :: (b2 % 16 * 4 + b3 / 64) :: (b3 % 64) ::
      b64Sextets rest
  | [b1, b2] => [b1 / 4, b1 % 4 * 16 + b2 / 16, b2 % 16 * 4]
  | [b1] => [b1 / 4, b1 % 4 * 16]
  | [] => []

/-- A pending session fixture used in closed statements. -/
def sampleSession (sid : List Char) : UserSession :=
  { session_id := sid
    user_id := none
    oauth_token := none
    state := .pending
    created_at := 0
    last_accessed := 0
    ip_address := none
    user_agent := none
    pkce_challenge := none
    request_count := 0
    rate_limit_reset := 60 }

/-- A token holding a refresh token, used in closed statements. -/
def tokenWithRefresh : OAuthToken :=
  { access_token := "at".toList
    refresh_token := some "rt".toList
    token_type := "Bearer".toList
    expires_in := 3600
    scope := "scope".toList
    created_at := 0
    refreshed_at := none
    refresh_count := 0 }

/-- A well-formed refresh response, used in closed statements. -/
def goodRefreshResponse : TokenResponse :=
  { access_token := "at2".toList
    refresh_token := none
    token_type := some "Bearer".toList
    expires_in := 3600
    scope := none }

/-- A network oracle whose first attempt fails at the transport level
and whose later attempts would succeed. -/
def flakyNet : Nat → HttpOutcome := fun attempt =>
  if attempt = 1 then .requestError else .response 200 goodRefreshResponse

/-- A session id fixture for the session-manager statements. -/
def c6Sid : List Char := List.replicate 43 'b'

/-- A session sitting at its coarse one-minute limit. -/
def c6Session : UserSession :=
  { sampleSession c6Sid with request_count := 60, rate_limit_reset := 100, last_accessed := 50 }

/-- A session-manager state holding only `c6Session`. -/
def c6State : SessionManagerState :=
  { sessions := [(c6Sid, c6Session)]
    storage := { sessions := [(c6Sid, c6Session)], tokens := [] } }

/-! ## Theorems -/

/-- C1: every generated PKCE challenge carries `code_challenge` equal
to the URL-safe base64 encoding, `=` padding stripped, of the SHA-256
digest of the UTF-8 bytes of `code_verifier`, and its
`code_challenge_method` is the string "S256". -/
theorem PKCEChallenge.generate_matches_spec_formula (randomBytes : List Nat) :
    (PKCEChallenge.generate randomBytes).code_challenge =
      specPkceChallengeOf (PKCEChallenge.generate randomBytes).code_verifier ∧
    (PKCEChallenge.generate randomBytes).code_challenge_method = "S256".toList :=
  ⟨rfl, rfl⟩

/-- C2: `expires_at` is `created_at + expires_in`, and `is_expired`
holds exactly from the instant `created_at + expires_in - 60` on —
true at that instant, false one second before. -/
theorem OAuthToken.expiry_buffer_semantics (tok : OAuthToken) :
    tok.expires_at = tok.created_at + tok.expires_in ∧
    (∀ now : Int, tok.is_expired now = true ↔ tok.created_at + tok.expires_in - 60 ≤ now) ∧
    tok.is_expired (tok.created_at + tok.expires_in - 60) = true ∧
    tok.is_expired (tok.created_at + tok.expires_in - 61) = false := by
  refine ⟨rfl, fun now => ?_, ?_, ?_⟩ <;>
    simp only [OAuthToken.is_expired, OAuthToken.expires_at, ge_iff_le, decide_eq_true_eq,
      decide_eq_false_iff_not, not_le] <;>
    omega

/-- `find?` after an in-place association-list update. -/
theorem find_map_set {α : Type} (m : List (List Char × α)) (k : List Char) (v : α)
    (hm : m.any (fun p => p.1 = k) = true) :
    List.find? (fun p => p.1 = k) (m.map (fun p => if p.1 = k then (k, v) else p)) =
      some (k, v) := by
  induction m with
  | nil => simp at hm
  | cons p rest ih =>
    rw [List.any_cons] at hm
    by_cases hp : p.1 = k
    · simp [hp, List.find?]
    · have h1 : (decide (p.1 = k)) = false := by simpa using hp
      rw [h1] at hm
      simp only [Bool.false_or] at hm
      simp only [List.map_cons, if_neg hp, List.find?, h1]
      exact ih hm

/-- `find?` after an append-at-end association-list insert. -/
theorem find_append_set {α : Type} (m : List (List Char × α)) (k : List Char) (v : α)
    (hm : m.any (fun p => p.1 = k) = false) :
    List.find? (fun p => p.1 = k) (m ++ [(k, v)]) = some (k, v) := by
  induction m with
  | nil => simp [List.find?]
  | cons p rest ih =>
    rw [List.any_cons] at hm
    have h1 : (decide (p.1 = k)) = false := (Bool.or_eq_false_iff.mp hm).1
    have h2 : rest.any (fun p => decide (p.1 = k)) = false := (Bool.or_eq_false_iff.mp hm).2
    simp only [List.cons_append, List.find?, h1]
    exact ih h2

/-- `find?` on the key just written with `alSet`. -/
theorem find_alSet {α : Type} (m : List (List Char × α)) (k : List Char) (v : α) :
    List.find? (fun p => p.1 = k) (alSet m k v) = some (k, v) := by
  unfold alSet
  by_cases h : m.any (fun p => p.1 = k)
  · rw [if_pos h]
    exact find_map_set m k v h
  · rw [if_neg h]
    exact find_append_set m k v (Bool.eq_false_iff.mpr h)

/-- `alFind` on the key just written. -/
theorem alFind_alSet {α : Type} (m : List (List Char × α)) (k : List Char) (v : α) :
    alFind (alSet m k v) k = some v := by
  unfold alFind
  rw [find_alSet]
  rfl

/-- `alGet` on the key just written. -/
theorem alGet_alSet {α : Type} (m : List (List Char × α)) (k : List Char) (v d : α) :
    alGet (alSet m k v) k d = v := by
  unfold alGet
  rw [alFind_alSet]
  rfl

/-- C9: `RateLimiter.check_rate_limit` never returns `False`, despite
its docstring's "False if rate limited": every call either raises
`RateLimitExceeded` — exactly when one of the three pruned windows is
at its limit — or returns `True`. -/
theorem RateLimiter.check_rate_limit_never_returns_false (cfg : RateLimiterConfig)
    (st : RateLimiterState) (sid : List Char) (now : Int) :
    (RateLimiter.check_rate_limit cfg st sid now).1 ≠ .ok false ∧
    ((RateLimiter.check_rate_limit cfg st sid now).1 = .ok true ↔
      ((pruneOld (alGet (rlPreStep cfg st now).burst_requests sid []) (now - 10)).length <
          cfg.burst_limit ∧
       (pruneOld (alGet (rlPreStep cfg st now).minute_requests sid []) (now - 60)).length <
          cfg.requests_per_minute ∧
       (pruneOld (alGet (rlPreStep cfg st now).hour_requests sid []) (now - 3600)).length <
          cfg.requests_per_hour)) := by
  unfold RateLimiter.check_rate_limit
  by_cases h1 : (pruneOld (alGet (rlPreStep cfg st now).burst_requests sid []) (now - 10)).length
      ≥ cfg.burst_limit
  · simp [h1]
  · by_cases h2 : (pruneOld (alGet (rlPreStep cfg st now).minute_requests sid []) (now - 60)).length
        ≥ cfg.requests_per_minute
    · simp [h1, h2]
    · by_cases h3 : (pruneOld (alGet (rlPreStep cfg st now).hour_requests sid [])
          (now - 3600)).length ≥ cfg.requests_per_hour
      · simp [h1, h2, h3]
      · simp [h1, h2, h3]
        omega

/-- C3: when the pruned burst window is at its limit, the session's
violation counter is incremented and the call sleeps
`min 60 (2 ^ min violations 6)` seconds (with `violations` the
incremented counter) before raising; when the burst window passes but
the minute or hour window is at its limit, the call raises at once
with no backoff sleep. -/
theorem RateLimiter.check_rate_limit_backoff_discipline (cfg : RateLimiterConfig)
    (st : RateLimiterState) (sid : List Char) (now : Int) :
    ((pruneOld (alGet (rlPreStep cfg st now).burst_requests sid []) (now - 10)).length ≥
        cfg.burst_limit →
      RateLimiter.check_rate_limit cfg st sid now =
        (.error (.burst (min 60 (2 ^ min (alGet (rlPreStep cfg st now).violation_counts sid 0 + 1) 6))),
         { rlPreStep cfg st now with
             burst_requests := alSet (rlPreStep cfg st now).burst_requests sid
               (pruneOld (alGet (rlPreStep cfg st now).burst_requests sid []) (now - 10))
             violation_counts := alSet (rlPreStep cfg st now).violation_counts sid
               (alGet (rlPreStep cfg st now).violation_counts sid 0 + 1) },
         [min 60 (2 ^ min (alGet (rlPreStep cfg st now).violation_counts sid 0 + 1) 6)])) ∧
    ((pruneOld (alGet (rlPreStep cfg st now).burst_requests sid []) (now - 10)).length <
        cfg.burst_limit →
      (pruneOld (alGet (rlPreStep cfg st now).minute_requests sid []) (now - 60)).length ≥
        cfg.requests_per_minute →
      (RateLimiter.check_rate_limit cfg st sid now).1 = .error .minute ∧
      (RateLimiter.check_rate_limit cfg st sid now).2.2 = []) ∧
    ((pruneOld (alGet (rlPreStep cfg st now).burst_requests sid []) (now - 10)).length <
        cfg.burst_limit →
      (pruneOld (alGet (rlPreStep cfg st now).minute_requests sid []) (now - 60)).length <
        cfg.requests_per_minute →
      (pruneOld (alGet (rlPreStep cfg st now).hour_requests sid []) (now - 3600)).length ≥
        cfg.requests_per_hour →
      (RateLimiter.check_rate_limit cfg st sid now).1 = .error .hour ∧
      (RateLimiter.check_rate_limit cfg st sid now).2.2 = []) := by
  refine ⟨fun h1 => ?_, fun h1 h2 => ?_, fun h1 h2 h3 => ?_⟩
  · simp [RateLimiter.check_rate_limit, h1]
  · simp [RateLimiter.check_rate_limit, Nat.not_le.mpr h1, h2]
  · simp [RateLimiter.check_rate_limit, Nat.not_le.mpr h1, Nat.not_le.mpr h2, h3]

/-- C3 witness: with a burst limit of 1 and one fresh timestamp on
record, a call at the same second raises after sleeping 2 seconds
(first violation) and the counter reads 1. -/
theorem RateLimiter.check_rate_limit_backoff_witness :
    (pruneOld (alGet (rlPreStep ({ burst_limit := 1 } : RateLimiterConfig)
        ({ burst_requests := [("s".toList, [100])], last_cleanup := 100 } : RateLimiterState)
        100).burst_requests "s".toList []) (100 - 10)).length ≥
      ({ burst_limit := 1 } : RateLimiterConfig).burst_limit ∧
    (RateLimiter.check_rate_limit ({ burst_limit := 1 } : RateLimiterConfig)
        ({ burst_requests := [("s".toList, [100])], last_cleanup := 100 } : RateLimiterState)
        "s".toList 100).1 = .error (.burst 2) ∧
    (RateLimiter.check_rate_limit ({ burst_limit := 1 } : RateLimiterConfig)
        ({ burst_requests := [("s".toList, [100])], last_cleanup := 100 } : RateLimiterState)
        "s".toList 100).2.2 = [2] :=
  ⟨by decide,
   by rw [(RateLimiter.check_rate_limit_backoff_discipline _ _ _ _).1 (by decide)]; decide,
   by rw [(RateLimiter.check_rate_limit_backoff_discipline _ _ _ _).1 (by decide)]; decide⟩

/-- Every error the `refresh_token` body lets out is an `OAuthError`:
the `except httpx.RequestError` clause wraps transport failures before
the decorator can see them. -/
theorem refreshAttempt_only_oauth_errors (tok : OAuthToken) (net : HttpOutcome) (now : Int)
    (e : PyExcKind) (h : refreshAttempt tok net now = .error e) :
    ∃ d, e = .oauthError d := by
  cases net with
  | requestError =>
    simp only [refreshAttempt] at h
    split_ifs at h
    · exact ⟨.noRefreshToken, ((Except.error.injEq _ _).mp h).symm⟩
    · exact ⟨.network, ((Except.error.injEq _ _).mp h).symm⟩
  | response status body =>
    simp only [refreshAttempt] at h
    split_ifs at h
    · exact ⟨.noRefreshToken, ((Except.error.injEq _ _).mp h).symm⟩
    · exact ⟨.httpStatus status, ((Except.error.injEq _ _).mp h).symm⟩

/-- C4: the retry decorator on `refresh_token` is dead code — every
call makes exactly one attempt and never sleeps, because the body
re-raises transport failures as `OAuthError`, which the predicate
`retry_if_exception_type((httpx.RequestError, httpx.HTTPStatusError))`
does not retry.  At the concrete failing input (network failure on
attempt 1, success available on attempt 2) the call fails at once
instead of retrying with backoff as specified. -/
theorem OAuthManager.refresh_token_retry_is_dead_code :
    (∀ (tok : OAuthToken) (net : Nat → HttpOutcome) (now : Int),
       (OAuthManager.refresh_token tok net now).2.1 = 1 ∧
       (OAuthManager.refresh_token tok net now).2.2 = []) ∧
    OAuthManager.refresh_token tokenWithRefresh flakyNet 0 =
      (.error (.oauthError .network), 1, []) ∧
    refreshAttempt tokenWithRefresh (flakyNet 2) 0 =
      .ok (tokenWithRefresh.refresh goodRefreshResponse 0) := by
  refine ⟨fun tok net now => ?_, by rfl, by rfl⟩
  unfold OAuthManager.refresh_token tenacityGo
  rcases h : refreshAttempt tok (net 1) now with e | a
  · have hre : tenacityRetryPredicate e = false := by
      obtain ⟨d, rfl⟩ := refreshAttempt_only_oauth_errors tok (net 1) now e h
      rfl
    simp [hre]
  · exact ⟨rfl, rfl⟩

/-- Removing a key twice is the same as removing it once. -/
theorem alRemove_idem {α : Type} (m : List (List Char × α)) (k : List Char) :
    alRemove (alRemove m k) k = alRemove m k := by
  unfold alRemove
  rw [List.filter_filter]
  simp

/-- C5 counterexample: with one stored session, deleting it twice
returns `True` both times — the second call does not return `False` as
the claim states. -/
theorem SessionManager.delete_session_twice_counterexample :
    (let sid := List.replicate 43 'a'
     let st0 : SessionManagerState :=
       { sessions := [(sid, sampleSession sid)]
         storage := { sessions := [(sid, sampleSession sid)], tokens := [] } }
     (st0.delete_session sid).1 = true ∧
     ((st0.delete_session sid).2.delete_session sid).1 = true) :=
  ⟨rfl, rfl⟩

/-- C5 amended: both calls return `True` (the memory backend's delete
is a silent no-op on a missing key and never raises), and the second
call leaves the state unchanged. -/
theorem SessionManager.delete_session_true_then_noop (st : SessionManagerState)
    (sid : List Char) :
    (st.delete_session sid).1 = true ∧
    ((st.delete_session sid).2.delete_session sid).1 = true ∧
    ((st.delete_session sid).2.delete_session sid).2 = (st.delete_session sid).2 := by
  refine ⟨rfl, rfl, ?_⟩
  unfold SessionManagerState.delete_session MemoryStorage.delete_session
  simp only [alRemove_idem]

/-- C7: the malformed address "not-an-ip" escapes as the factory's
uncaught builtin `ValueError` (the `except AddressValueError` clause is
dead), while parseable addresses are rejected from the block-list,
rejected when absent from a configured allow-list, and accepted
otherwise with `SecurityValidationError` as documented. -/
theorem SecurityValidator.validate_ip_address_leaks_valueerror :
    SecurityValidator.validate_ip_address { allowed_ips := [], blocked_ips := [] }
        "not-an-ip".toList = .error .uncaughtValueError ∧
    SecurityValidator.validate_ip_address
        { allowed_ips := [], blocked_ips := ["203.0.113.5".toList] }
        "203.0.113.5".toList = .error (.securityValidationError .ipBlocked) ∧
    SecurityValidator.validate_ip_address
        { allowed_ips := ["10.0.0.1".toList], blocked_ips := [] }
        "10.0.0.2".toList = .error (.securityValidationError .ipNotAllowed) ∧
    SecurityValidator.validate_ip_address { allowed_ips := [], blocked_ips := [] }
        "10.0.0.2".toList = .ok true :=
  ⟨by decide, by decide, by decide, by decide⟩

/-- `is_rate_limited` never changes the session id. -/
theorem UserSession.is_rate_limited_preserves_id (s : UserSession) (m : Nat) (t : Int) :
    (s.is_rate_limited m t).2.session_id = s.session_id := by
  unfold UserSession.is_rate_limited
  split_ifs <;> rfl

/-- `increment_request_count` never changes the session id. -/
theorem UserSession.increment_preserves_id (s : UserSession) (t : Int) :
    (s.increment_request_count t).session_id = s.session_id := by
  unfold UserSession.increment_request_count
  split_ifs <;> rfl

/-- C6 counterexample: at `c6State` the session manager denies the
call out of the session's own coarse counter while the Rate Limiter
component — whose state the session manager never consults — would
admit the very same session id at the same instant: the admission
decision is not delegated to the Rate Limiter. -/
theorem SessionManager.check_rate_limit_not_delegated_counterexample :
    (c6State.check_rate_limit c6Sid none 60).1 = false ∧
    (RateLimiter.check_rate_limit {} {} c6Sid 60).1 = .ok true :=
  ⟨rfl, rfl⟩

/-- C6 amended: for a cached, unexpired session, `check_rate_limit`
decides admission from the session's own coarse counter
(`UserSession.is_rate_limited`) — not from the Rate Limiter component —
and the `get_session` lookup persists the touched session on every
call, but the counter is incremented and re-persisted only when the
verdict is allow. -/
theorem SessionManager.check_rate_limit_uses_session_counter
    (st : SessionManagerState) (sid : List Char) (mr : Option Nat) (now : Int)
    (s : UserSession)
    (h1 : alFind st.sessions sid = some s)
    (h2 : s.is_expired now = false) :
    (let maxReq : Nat := match mr with | none => 60 | some 0 => 60 | some m => m
     let touched := s.update_access now
     let verdict := (touched.is_rate_limited maxReq now).1
     (st.check_rate_limit sid mr now).1 = !verdict ∧
     (verdict = true →
       alFind (st.check_rate_limit sid mr now).2.storage.sessions s.session_id =
         some touched) ∧
     (verdict = false →
       alFind (st.check_rate_limit sid mr now).2.storage.sessions s.session_id =
         some (((touched.is_rate_limited maxReq now).2).increment_request_count now))) := by
  intro maxReq touched verdict
  have hv : verdict = (touched.is_rate_limited maxReq now).1 := rfl
  unfold SessionManagerState.check_rate_limit SessionManagerState.get_session
  rw [h1]
  simp only [h2, Bool.false_eq_true, if_false]
  rcases hl : touched.is_rate_limited maxReq now with ⟨l, s2⟩
  rw [hl] at hv
  have hid : s2.session_id = s.session_id := by
    have hh := UserSession.is_rate_limited_preserves_id touched maxReq now
    rw [hl] at hh
    exact hh
  have hid3 : (s2.increment_request_count now).session_id = s.session_id := by
    rw [UserSession.increment_preserves_id]
    exact hid
  cases l with
  | true =>
    refine ⟨?_, ?_, ?_⟩
    · simp [hv]
    · intro hverdict
      simp only [if_pos rfl, SessionManagerState.store_session, MemoryStorage.store_session]
      exact alFind_alSet _ _ _
    · intro hfalse
      rw [hv] at hfalse
      exact absurd hfalse (by simp)
  | false =>
    have hne : ¬ ((false, s2).1 = true) := by simp
    refine ⟨?_, ?_, ?_⟩
    · simp [hv]
    · intro htrue
      rw [hv] at htrue
      exact absurd htrue (by simp)
    · intro hverdict
      simp only [if_neg hne, SessionManagerState.store_session, MemoryStorage.store_session]
      rw [← hid3]
      exact alFind_alSet _ _ _


/-- C6 amended witness: at `c6State` the hypotheses hold and the
verdict is deny, computed from the session's own counter. -/
theorem SessionManager.check_rate_limit_uses_session_counter_witness :
    alFind c6State.sessions c6Sid = some c6Session ∧
    c6Session.is_expired 60 = false ∧
    (c6State.check_rate_limit c6Sid none 60).1 =
      !((c6Session.update_access 60).is_rate_limited 60 60).1 :=
  ⟨by decide, by decide,
   (SessionManager.check_rate_limit_uses_session_counter c6State c6Sid none 60 c6Session
      (by decide) (by decide)).1⟩

/-- Every URL-safe alphabet character is in the session-id class. -/
theorem urlAlphabet_char_class (i : Nat) (h : i < 64) :
    sessionIdChar (urlB64Alphabet.getD i 'A') = true := by
  interval_cases i <;> decide

/-- No URL-safe alphabet character is the padding character. -/
theorem urlAlphabet_char_ne_pad (i : Nat) (h : i < 64) :
    urlB64Alphabet.getD i 'A' ≠ '=' := by
  interval_cases i <;> decide

/-- Stripping is the identity on strings without `=`. -/
theorem rstripEq_of_all_ne (xs : List Char) (h : ∀ c ∈ xs, c ≠ '=') :
    rstripEq xs = xs := by
  unfold rstripEq
  have hd : xs.reverse.dropWhile (fun c => c = '=') = xs.reverse := by
    cases hrev : xs.reverse with
    | nil => rfl
    | cons a t =>
      have ha : a ∈ xs := by
        rw [← List.mem_reverse, hrev]
        exact List.mem_cons_self a t
      rw [List.dropWhile_cons]
      have hfalse : (decide (a = '=')) = false := by simp [h a ha]
      rw [hfalse]
      simp
  rw [hd, List.reverse_reverse]

/-- Stripping skips over a `=`-free prefix. -/
theorem rstripEq_append_of_all_ne (xs ys : List Char) (h : ∀ c ∈ xs, c ≠ '=') :
    rstripEq (xs ++ ys) = xs ++ rstripEq ys := by
  unfold rstripEq
  rw [List.reverse_append, List.dropWhile_append]
  by_cases he : (ys.reverse.dropWhile (fun c => c = '=')).isEmpty
  · rw [if_pos he]
    have hys : ys.reverse.dropWhile (fun c => c = '=') = [] := by
      simpa [List.isEmpty_iff] using he
    rw [hys]
    have hxs : xs.reverse.dropWhile (fun c => c = '=') = xs.reverse := by
      have := rstripEq_of_all_ne xs h
      unfold rstripEq at this
      have h2 := congrArg List.reverse this
      rwa [List.reverse_reverse] at h2
    rw [hxs, List.reverse_reverse]
    simp
  · rw [if_neg he]
    rw [List.reverse_append]
    simp

/-- `secrets.token_urlsafe` on `3n + 2` bytes yields `4n + 3`
characters, all in the `[A-Za-z0-9_-]` class. -/
theorem tokenUrlsafe_blocks_spec : ∀ (n : Nat) (bs : List Nat), bs.length = 3 * n + 2 →
    (∀ b ∈ bs, b < 256) →
    (tokenUrlsafe bs).length = 4 * n + 3 ∧ ∀ c ∈ tokenUrlsafe bs, sessionIdChar c = true := by
  intro n
  induction n with
  | zero =>
    intro bs hlen hb
    match bs, hlen with
    | [b1, b2], _ =>
      have h1 : b1 < 256 := hb b1 (by simp)
      have h2 : b2 < 256 := hb b2 (by simp)
      have e : tokenUrlsafe [b1, b2] =
          [b64Char urlB64Alphabet (b1 / 4), b64Char urlB64Alphabet (b1 % 4 * 16 + b2 / 16),
           b64Char urlB64Alphabet (b2 % 16 * 4)] := by
        show rstripEq ([b64Char urlB64Alphabet (b1 / 4), b64Char urlB64Alphabet (b1 % 4 * 16 + b2 / 16),
           b64Char urlB64Alphabet (b2 % 16 * 4)] ++ ['=']) = _
        rw [rstripEq_append_of_all_ne]
        · show _ ++ ([] : List Char) = _
          simp
        · intro c hc
          simp only [List.mem_cons, List.mem_singleton, List.not_mem_nil, or_false] at hc
          rcases hc with rfl | rfl | rfl
          · exact urlAlphabet_char_ne_pad _ (by omega)
          · exact urlAlphabet_char_ne_pad _ (by omega)
          · exact urlAlphabet_char_ne_pad _ (by omega)
      rw [e]
      refine ⟨rfl, ?_⟩
      intro c hc
      simp only [List.mem_cons, List.not_mem_nil, or_false] at hc
      rcases hc with rfl | rfl | rfl
      · exact urlAlphabet_char_class _ (by omega)
      · exact urlAlphabet_char_class _ (by omega)
      · exact urlAlphabet_char_class _ (by omega)
  | succ n ih =>
    intro bs hlen hb
    match bs, hlen with
    | b1 :: b2 :: b3 :: rest, hlen =>
      have hrest : rest.length = 3 * n + 2 := by
        simp only [List.length_cons] at hlen
        omega
      have h1 : b1 < 256 := hb b1 (by simp)
      have h2 : b2 < 256 := hb b2 (by simp)
      have h3 : b3 < 256 := hb b3 (by simp)
      have hbr : ∀ b ∈ rest, b < 256 := fun b hbm => hb b (by simp [hbm])
      obtain ⟨ihlen, ihclass⟩ := ih rest hrest hbr
      have e : tokenUrlsafe (b1 :: b2 :: b3 :: rest) =
          [b64Char urlB64Alphabet (b1 / 4), b64Char urlB64Alphabet (b1 % 4 * 16 + b2 / 16),
           b64Char urlB64Alphabet (b2 % 16 * 4 + b3 / 64), b64Char urlB64Alphabet (b3 % 64)] ++
          tokenUrlsafe rest := by
        show rstripEq ([b64Char urlB64Alphabet (b1 / 4), b64Char urlB64Alphabet (b1 % 4 * 16 + b2 / 16),
           b64Char urlB64Alphabet (b2 % 16 * 4 + b3 / 64), b64Char urlB64Alphabet (b3 % 64)] ++
           b64EncodeWith urlB64Alphabet rest) = _
        rw [rstripEq_append_of_all_ne]
        · rfl
        · intro c hc
          simp only [List.mem_cons, List.not_mem_nil, or_false] at hc
          rcases hc with rfl | rfl | rfl | rfl
          · exact urlAlphabet_char_ne_pad _ (by omega)
          · exact urlAlphabet_char_ne_pad _ (by omega)
          · exact urlAlphabet_char_ne_pad _ (by omega)
          · exact urlAlphabet_char_ne_pad _ (by omega)
      rw [e]
      constructor
      · simp only [List.length_append, List.length_cons, List.length_nil, ihlen]
        omega
      · intro c hc
        rw [List.mem_append] at hc
        rcases hc with hc | hc
        · simp only [List.mem_cons, List.not_mem_nil, or_false] at hc
          rcases hc with rfl | rfl | rfl | rfl
          · exact urlAlphabet_char_class _ (by omega)
          · exact urlAlphabet_char_class _ (by omega)
          · exact urlAlphabet_char_class _ (by omega)
          · exact urlAlphabet_char_class _ (by omega)
        · exact ihclass c hc

/-- C10: a session id produced by `UserSession.create_new` over 32
random bytes is exactly 43 characters of `[A-Za-z0-9_-]` and passes
`SecurityValidator.validate_session_id`. -/
theorem UserSession.create_new_id_passes_validation (sidBytes pkceBytes : List Nat)
    (now : Int) (ip ua : Option (List Char))
    (h1 : sidBytes.length = 32) (h2 : ∀ b ∈ sidBytes, b < 256) :
    (UserSession.create_new sidBytes pkceBytes now ip ua).session_id.length = 43 ∧
    (∀ c ∈ (UserSession.create_new sidBytes pkceBytes now ip ua).session_id,
      sessionIdChar c = true) ∧
    validateSessionId (UserSession.create_new sidBytes pkceBytes now ip ua).session_id =
      .ok true := by
  have hlen32 : sidBytes.length = 3 * 10 + 2 := by omega
  obtain ⟨hl, hc⟩ := tokenUrlsafe_blocks_spec 10 sidBytes hlen32 h2
  have hsid : (UserSession.create_new sidBytes pkceBytes now ip ua).session_id =
      tokenUrlsafe sidBytes := rfl
  refine ⟨by rw [hsid, hl], by rw [hsid]; exact hc, ?_⟩
  rw [hsid]
  unfold validateSessionId
  have hne : tokenUrlsafe sidBytes ≠ [] := by
    intro h0
    rw [h0] at hl
    simp at hl
  rw [if_neg hne]
  have hcond : (tokenUrlsafe sidBytes).length = 43 ∧
      (tokenUrlsafe sidBytes).all sessionIdChar := by
    refine ⟨by rw [hl], ?_⟩
    rw [List.all_eq_true]
    intro c hc2
    exact hc c hc2
  rw [if_pos hcond]

/-- C10 witness: the all-zero 32-byte draw. -/
theorem UserSession.create_new_id_passes_validation_witness :
    (List.replicate 32 0).length = 32 ∧ (∀ b ∈ List.replicate 32 0, b < 256) ∧
    validateSessionId (UserSession.create_new (List.replicate 32 0) [] 0 none none).session_id =
      .ok true :=
  ⟨by decide, by decide,
   (UserSession.create_new_id_passes_validation (List.replicate 32 0) [] 0 none none
      (by decide) (by decide)).2.2⟩

/-- The standard alphabet decodes its own characters. -/
theorem stdVal_b64Char (i : Nat) (h : i < 64) :
    stdB64Val (b64Char stdB64Alphabet i) = some i := by
  interval_cases i <;> decide

/-- No standard-alphabet character is padding. -/
theorem notPad_b64Char (i : Nat) (h : i < 64) : notPadChar (b64Char stdB64Alphabet i) = true := by
  interval_cases i <;> decide

/-- The non-padding prefix of an encoding maps back to the sextets. -/
theorem b64_body_vals : ∀ (bs : List Nat), (∀ b ∈ bs, b < 256) →
    b64Vals ((b64Encode bs).takeWhile notPadChar) = some (b64Sextets bs) := by
  intro bs
  induction bs using b64Sextets.induct with
  | case1 b1 b2 b3 rest ih =>
    intro hb
    have h1 : b1 < 256 := hb b1 (by simp)
    have h2 : b2 < 256 := hb b2 (by simp)
    have h3 : b3 < 256 := hb b3 (by simp)
    have hr := ih (fun b hbm => hb b (by simp [hbm]))
    have e1 := stdVal_b64Char (b1 / 4) (by omega)
    have e2 := stdVal_b64Char (b1 % 4 * 16 + b2 / 16) (by omega)
    have e3 := stdVal_b64Char (b2 % 16 * 4 + b3 / 64) (by omega)
    have e4 := stdVal_b64Char (b3 % 64) (by omega)
    have n1 := notPad_b64Char (b1 / 4) (by omega)
    have n2 := notPad_b64Char (b1 % 4 * 16 + b2 / 16) (by omega)
    have n3 := notPad_b64Char (b2 % 16 * 4 + b3 / 64) (by omega)
    have n4 := notPad_b64Char (b3 % 64) (by omega)
    simp only [b64Encode] at hr ⊢
    simp only [b64EncodeWith, b64Sextets, List.takeWhile_cons, n1, n2, n3, n4, if_true,
      b64Vals, e1, e2, e3, e4, hr]
  | case2 b1 b2 =>
    intro hb
    have h1 : b1 < 256 := hb b1 (by simp)
    have h2 : b2 < 256 := hb b2 (by simp)
    have e1 := stdVal_b64Char (b1 / 4) (by omega)
    have e2 := stdVal_b64Char (b1 % 4 * 16 + b2 / 16) (by omega)
    have e3 := stdVal_b64Char (b2 % 16 * 4) (by omega)
    have n1 := notPad_b64Char (b1 / 4) (by omega)
    have n2 := notPad_b64Char (b1 % 4 * 16 + b2 / 16) (by omega)
    have n3 := notPad_b64Char (b2 % 16 * 4) (by omega)
    simp only [b64Encode, b64EncodeWith, b64Sextets, List.takeWhile_cons, n1, n2, n3, if_true,
      b64Vals, e1, e2, e3]
  | case3 b1 =>
    intro hb
    have h1 : b1 < 256 := hb b1 (by simp)
    have e1 := stdVal_b64Char (b1 / 4) (by omega)
    have e2 := stdVal_b64Char (b1 % 4 * 16) (by omega)
    have n1 := notPad_b64Char (b1 / 4) (by omega)
    have n2 := notPad_b64Char (b1 % 4 * 16) (by omega)
    simp only [b64Encode, b64EncodeWith, b64Sextets, List.takeWhile_cons, n1, n2, if_true,
      b64Vals, e1, e2]
  | case4 =>
    intro hb
    rfl

/-- The padding suffix of an encoding is at most two `=`. -/
theorem b64_pad_shape : ∀ (bs : List Nat), (∀ b ∈ bs, b < 256) →
    ((b64Encode bs).dropWhile notPadChar).all isPadChar = true ∧
    ((b64Encode bs).dropWhile notPadChar).length ≤ 2 := by
  intro bs
  induction bs using b64Sextets.induct with
  | case1 b1 b2 b3 rest ih =>
    intro hb
    have h1 : b1 < 256 := hb b1 (by simp)
    have h2 : b2 < 256 := hb b2 (by simp)
    have h3 : b3 < 256 := hb b3 (by simp)
    have hr := ih (fun b hbm => hb b (by simp [hbm]))
    have n1 := notPad_b64Char (b1 / 4) (by omega)
    have n2 := notPad_b64Char (b1 % 4 * 16 + b2 / 16) (by omega)
    have n3 := notPad_b64Char (b2 % 16 * 4 + b3 / 64) (by omega)
    have n4 := notPad_b64Char (b3 % 64) (by omega)
    simp only [b64Encode] at hr ⊢
    simpa only [b64EncodeWith, List.dropWhile_cons, n1, n2, n3, n4, if_true] using hr
  | case2 b1 b2 =>
    intro hb
    have h1 : b1 < 256 := hb b1 (by simp)
    have h2 : b2 < 256 := hb b2 (by simp)
    have n1 := notPad_b64Char (b1 / 4) (by omega)
    have n2 := notPad_b64Char (b1 % 4 * 16 + b2 / 16) (by omega)
    have n3 := notPad_b64Char (b2 % 16 * 4) (by omega)
    simp only [b64Encode, b64EncodeWith, List.dropWhile_cons, n1, n2, n3, if_true]
    exact ⟨by decide, by decide⟩
  | case3 b1 =>
    intro hb
    have h1 : b1 < 256 := hb b1 (by simp)
    have n1 := notPad_b64Char (b1 / 4) (by omega)
    have n2 := notPad_b64Char (b1 % 4 * 16) (by omega)
    simp only [b64Encode, b64EncodeWith, List.dropWhile_cons, n1, n2, if_true]
    exact ⟨by decide, by decide⟩
  | case4 =>
    intro hb
    exact ⟨by decide, by decide⟩

/-- Base64 encodings have length a multiple of four. -/
theorem b64_encode_len : ∀ (bs : List Nat), (b64Encode bs).length % 4 = 0 := by
  intro bs
  induction bs using b64Sextets.induct with
  | case1 b1 b2 b3 rest ih =>
    simp only [b64Encode, b64EncodeWith, List.length_cons] at ih ⊢
    omega
  | case2 b1 b2 => simp [b64Encode, b64EncodeWith]
  | case3 b1 => simp [b64Encode, b64EncodeWith]
  | case4 => rfl

/-- Decoding the sextet groups restores the bytes. -/
theorem b64_groups_decode : ∀ (bs : List Nat), (∀ b ∈ bs, b < 256) →
    b64DecodeGroups (b64Sextets bs) = some bs := by
  intro bs
  induction bs using b64Sextets.induct with
  | case1 b1 b2 b3 rest ih =>
    intro hb
    have h1 : b1 < 256 := hb b1 (by simp)
    have h2 : b2 < 256 := hb b2 (by simp)
    have h3 : b3 < 256 := hb b3 (by simp)
    have hr := ih (fun b hbm => hb b (by simp [hbm]))
    simp only [b64Sextets, b64DecodeGroups, hr, Option.map_some]
    have ea : b1 / 4 * 4 + (b1 % 4 * 16 + b2 / 16) / 16 = b1 := by omega
    have eb : (b1 % 4 * 16 + b2 / 16) % 16 * 16 + (b2 % 16 * 4 + b3 / 64) / 4 = b2 := by omega
    have ec : (b2 % 16 * 4 + b3 / 64) % 4 * 64 + b3 % 64 = b3 := by omega
    rw [ea, eb, ec]
    rfl
  | case2 b1 b2 =>
    intro hb
    have h1 : b1 < 256 := hb b1 (by simp)
    have h2 : b2 < 256 := hb b2 (by simp)
    simp only [b64Sextets, b64DecodeGroups]
    have ea : b1 / 4 * 4 + (b1 % 4 * 16 + b2 / 16) / 16 = b1 := by omega
    have eb : (b1 % 4 * 16 + b2 / 16) % 16 * 16 + b2 % 16 * 4 / 4 = b2 := by omega
    rw [ea, eb]
  | case3 b1 =>
    intro hb
    have h1 : b1 < 256 := hb b1 (by simp)
    simp only [b64Sextets, b64DecodeGroups]
    have ea : b1 / 4 * 4 + b1 % 4 * 16 / 16 = b1 := by omega
    rw [ea]
  | case4 =>
    intro hb
    rfl

/-- `base64.b64decode` inverts `base64.b64encode` on byte strings. -/
theorem b64Decode_b64Encode (bs : List Nat) (hb : ∀ b ∈ bs, b < 256) :
    b64Decode (b64Encode bs) = some bs := by
  unfold b64Decode
  rw [if_neg (by simp [b64_encode_len bs])]
  obtain ⟨hall, hlen⟩ := b64_pad_shape bs hb
  rw [if_pos ⟨hall, hlen⟩]
  rw [b64_body_vals bs hb]
  exact b64_groups_decode bs hb

/-- UTF-8 decoding inverts encoding on ASCII text. -/
theorem utf8_ascii_roundtrip : ∀ (s : List Char), (∀ c ∈ s, c.toNat < 128) →
    utf8Decode (utf8Encode s) = some s := by
  intro s
  induction s with
  | nil => intro _; rfl
  | cons c t ih =>
    intro h
    have hc : c.toNat < 128 := h c (by simp)
    have ht := ih (fun x hx => h x (by simp [hx]))
    have hone : utf8EncodeChar c = [c.toNat] := by
      unfold utf8EncodeChar
      rw [if_pos hc]
    have henc : utf8Encode (c :: t) = c.toNat :: utf8Encode t := by
      unfold utf8Encode
      rw [List.map_cons, List.flatten_cons, hone]
      rfl
    rw [henc]
    have hlt : c.toNat < 0x80 := hc
    rw [utf8Decode.eq_def]
    dsimp only
    rw [if_pos hlt, ht]
    dsimp only [Option.map]
    rw [Char.ofNat_toNat]

/-! ## JSON print-parse round-trip (used by C8)

The serialiser runs with `ensure_ascii=True` and integer-only numbers,
so every printed value re-parses to itself; the lemmas below follow the
parser through each production. -/

/-- Decimal digit characters satisfy the digit predicate. -/
theorem digitChar_isDigit (k : Nat) (h : k < 10) : isDigitChar (Char.ofNat (48 + k)) = true := by
  interval_cases k <;> decide

theorem digitChar_toNat (k : Nat) (h : k < 10) : (Char.ofNat (48 + k)).toNat = 48 + k := by
  interval_cases k <;> decide

theorem digitChar_ne_zero (k : Nat) (h0 : 0 < k) (h : k < 10) :
    Char.ofNat (48 + k) ≠ '0' := by
  interval_cases k <;> decide

theorem char_ne_of_pred (c d : Char) (hc : isDigitChar c = true) (hd : isDigitChar d = false) :
    c ≠ d := by
  intro heq
  rw [heq, hd] at hc
  cases hc

/-- Nonzero numbers print as a nonzero leading digit followed by digits. -/
theorem natDigits_shape : ∀ (fuel n : Nat), n ≤ fuel → 0 < n →
    ∃ c cs, natDigitsAux fuel n = c :: cs ∧ c ≠ '0' ∧ isDigitChar c = true ∧
      (∀ d ∈ cs, isDigitChar d = true) := by
  intro fuel
  induction fuel with
  | zero =>
    intro n hle hpos
    omega
  | succ fuel ih =>
    intro n hle hpos
    by_cases hsmall : n < 10
    · refine ⟨Char.ofNat (48 + n), [], ?_, digitChar_ne_zero n hpos hsmall,
        digitChar_isDigit n hsmall, by simp⟩
      show natDigitsAux (fuel + 1) n = _
      rw [natDigitsAux.eq_def]
      match n, hpos with
      | n + 1, _ => simp [if_pos (by omega : n + 1 < 10)]
    · have hd : n / 10 ≤ fuel := by
        have := Nat.div_lt_self (by omega : 0 < n) (by omega : 1 < 10)
        omega
      have hdp : 0 < n / 10 := Nat.div_pos (by omega) (by omega)
      obtain ⟨c, cs, he, hne, hdig, hcs⟩ := ih (n / 10) hd hdp
      refine ⟨c, cs ++ [Char.ofNat (48 + n % 10)], ?_, hne, hdig, ?_⟩
      · show natDigitsAux (fuel + 1) n = _
        rw [natDigitsAux.eq_def]
        match n, hpos with
        | n + 1, _ =>
          simp only [if_neg (by omega : ¬ n + 1 < 10)]
          rw [show (n + 1) / 10 = (n + 1) / 10 from rfl] at he ⊢
          rw [he]
          rfl
      · intro d hdm
        rw [List.mem_append] at hdm
        rcases hdm with hdm | hdm
        · exact hcs d hdm
        · simp only [List.mem_singleton] at hdm
          rw [hdm]
          exact digitChar_isDigit _ (by omega)

/-- Folding the printed digits back recovers the number. -/
theorem natDigitsAux_val : ∀ (fuel n : Nat), n ≤ fuel →
    (natDigitsAux fuel n).foldl (fun a d => a * 10 + (d.toNat - 48)) 0 = n := by
  intro fuel
  induction fuel with
  | zero =>
    intro n hle
    have : n = 0 := by omega
    subst this
    simp [natDigitsAux]
  | succ fuel ih =>
    intro n hle
    rcases Nat.eq_zero_or_pos n with rfl | hpos
    · simp [natDigitsAux]
    · rw [natDigitsAux.eq_def]
      match n, hpos, hle with
      | n + 1, _, hle =>
        by_cases hsmall : n + 1 < 10
        · simp only [if_pos hsmall, List.foldl_cons, List.foldl_nil]
          rw [digitChar_toNat (n + 1) hsmall]
          omega
        · simp only [if_neg hsmall]
          rw [List.foldl_append]
          have hd : (n + 1) / 10 ≤ fuel := by
            have := Nat.div_lt_self (by omega : 0 < n + 1) (by omega : 1 < 10)
            omega
          rw [ih ((n + 1) / 10) hd]
          simp only [List.foldl_cons, List.foldl_nil]
          rw [digitChar_toNat ((n + 1) % 10) (by omega)]
          omega

theorem takeWhile_append_of_all {α : Type} (p : α → Bool) (xs ys : List α)
    (h : ∀ x ∈ xs, p x = true) :
    List.takeWhile p (xs ++ ys) = xs ++ List.takeWhile p ys := by
  induction xs with
  | nil => rfl
  | cons a t ih =>
    rw [List.cons_append, List.takeWhile_cons, h a (by simp), if_pos rfl]
    rw [ih (fun x hx => h x (by simp [hx]))]
    rfl

theorem dropWhile_append_of_all {α : Type} (p : α → Bool) (xs ys : List α)
    (h : ∀ x ∈ xs, p x = true) :
    List.dropWhile p (xs ++ ys) = List.dropWhile p ys := by
  induction xs with
  | nil => rfl
  | cons a t ih =>
    rw [List.cons_append, List.dropWhile_cons, h a (by simp), if_pos rfl]
    exact ih (fun x hx => h x (by simp [hx]))

theorem takeWhile_digits_boundary (rest : List Char) (hb : numBoundary rest) :
    List.takeWhile isDigitChar rest = [] ∧ List.dropWhile isDigitChar rest = rest := by
  cases rest with
  | nil => exact ⟨rfl, rfl⟩
  | cons c t =>
    obtain ⟨hc, _, _, _⟩ := hb
    rw [List.takeWhile_cons, List.dropWhile_cons, hc]
    exact ⟨rfl, rfl⟩

theorem natDigits_cons (n : Nat) : ∃ c cs, natDigits n = c :: cs ∧ isDigitChar c = true ∧
    (∀ d ∈ cs, isDigitChar d = true) := by
  rcases Nat.eq_zero_or_pos n with rfl | hpos
  · exact ⟨'0', [], by simp [natDigits, natDigitsAux], by decide, by simp⟩
  · obtain ⟨c, cs, he, _, hdig, hcs⟩ := natDigits_shape n n (le_refl n) hpos
    exact ⟨c, cs, he, hdig, hcs⟩

/-- The number-token scanner inverts the decimal printer. -/
theorem parseNumBody_natDigits (n : Nat) (rest : List Char) (hb : numBoundary rest) :
    parseNumBody (natDigits n ++ rest) = some (n, rest) := by
  obtain ⟨htw, hdw⟩ := takeWhile_digits_boundary rest hb
  rcases Nat.eq_zero_or_pos n with rfl | hpos
  · show parseNumBody ((natDigitsAux 0 0) ++ rest) = _
    simp [natDigitsAux, parseNumBody]
  · obtain ⟨c, cs, he, hne, hdig, hcs⟩ := natDigits_shape n n (le_refl n) hpos
    show parseNumBody ((natDigitsAux n n) ++ rest) = _
    rw [he, List.cons_append]
    unfold parseNumBody
    dsimp only
    rw [if_neg hne, if_pos hdig]
    rw [takeWhile_append_of_all isDigitChar cs rest hcs, htw,
      dropWhile_append_of_all isDigitChar cs rest hcs, hdw]
    have hval : (c :: cs).foldl (fun a d => a * 10 + (d.toNat - 48)) 0 = n := by
      have hv := natDigitsAux_val n n (le_refl n)
      rw [he] at hv
      exact hv
    simp only [List.append_nil]
    rw [hval]

/-- The integer-token scanner inverts `json.dumps` of an int. -/
theorem parseIntTok_intDump (i : Int) (rest : List Char) (hb : numBoundary rest) :
    parseIntTok (intDump i ++ rest) = some (i, rest) := by
  have hnum := parseNumBody_natDigits i.natAbs rest hb
  by_cases hneg : i < 0
  · have hdump : intDump i = '-' :: natDigits i.natAbs := by
      unfold intDump
      rw [if_pos hneg]
    rw [hdump, List.cons_append]
    unfold parseIntTok
    dsimp only
    rw [if_pos rfl, hnum]
    dsimp only [Option.map]
    have hval : -((i.natAbs : Nat) : Int) = i := by omega
    rw [hval]
    cases rest with
    | nil => rfl
    | cons c t =>
      obtain ⟨_, h1, h2, h3⟩ := hb
      dsimp only
      rw [if_neg (by simp [h1, h2, h3])]
  · have hdump : intDump i = natDigits i.natAbs := by
      unfold intDump
      rw [if_neg hneg]
    obtain ⟨c, cs, he, hdig, _⟩ := natDigits_cons i.natAbs
    rw [hdump, he, List.cons_append]
    unfold parseIntTok
    dsimp only
    rw [if_neg (char_ne_of_pred c '-' hdig (by decide))]
    rw [← List.cons_append, ← he, hnum]
    dsimp only [Option.map]
    have hval : ((i.natAbs : Nat) : Int) = i := by omega
    rw [hval]
    cases rest with
    | nil => rfl
    | cons c2 t =>
      obtain ⟨_, h1, h2, h3⟩ := hb
      dsimp only
      rw [if_neg (by simp [h1, h2, h3])]

theorem hexDigitVal_hexDigChar (k : Nat) (h : k < 16) :
    hexDigitVal (hexDigChar k) = some k := by
  interval_cases k <;> decide

theorem char_valid_nat (c : Char) :
    c.toNat < 0xD800 ∨ (0xDFFF < c.toNat ∧ c.toNat < 0x110000) := by
  have h := c.valid
  rcases h with h | ⟨h1, h2⟩
  · left
    exact h
  · right
    exact ⟨h1, h2⟩

/-- The string-literal scanner inverts the `ensure_ascii` escaper. -/
theorem parseStringBody_escape : ∀ (s : List Char) (rest : List Char),
    (∀ c ∈ s, c.toNat < 0x10000) →
    parseStringBody (escapeString s ++ ('"' :: rest)) = some (s, rest) := by
  intro s
  induction s with
  | nil =>
    intro rest hwf
    show parseStringBody ('"' :: rest) = _
    unfold parseStringBody
    rw [if_pos rfl]
  | cons c t ih =>
    intro rest hwf
    have hc : c.toNat < 0x10000 := hwf c (by simp)
    have hih := ih rest (fun x hx => hwf x (by simp [hx]))
    have hexp : escapeString (c :: t) = escapeChar c ++ escapeString t := by
      unfold escapeString
      rw [List.map_cons, List.flatten_cons]
    rw [hexp, List.append_assoc]
    by_cases h1 : c = '"'
    · subst h1
      rw [show escapeChar '"' = ['\\', '"'] from rfl]
      simp only [List.cons_append, List.nil_append]
      unfold parseStringBody
      rw [if_neg (by decide), if_pos rfl]
      dsimp only
      rw [if_neg (by decide)]
      rw [show unescapeSimple '"' = some '"' from rfl]
      rw [hih]
      rfl
    · by_cases h2 : c = '\\'
      · subst h2
        rw [show escapeChar '\\' = ['\\', '\\'] from rfl]
        simp only [List.cons_append, List.nil_append]
        unfold parseStringBody
        rw [if_neg (by decide), if_pos rfl]
        dsimp only
        rw [if_neg (by decide)]
        rw [show unescapeSimple '\\' = some '\\' from rfl]
        rw [hih]
        rfl
      · by_cases h3 : 32 ≤ c.toNat ∧ c.toNat ≤ 126
        · have hesc : escapeChar c = [c] := by
            unfold escapeChar
            rw [if_neg h1, if_neg h2, if_pos h3]
          rw [hesc]
          simp only [List.cons_append, List.nil_append]
          unfold parseStringBody
          rw [if_neg h1, if_neg h2, if_neg (by omega : ¬ c.toNat < 32)]
          rw [hih]
          rfl
        · have hesc : escapeChar c = '\\' :: 'u' :: hex4 c.toNat := by
            unfold escapeChar
            rw [if_neg h1, if_neg h2, if_neg h3]
          rw [hesc]
          rw [show hex4 c.toNat = [hexDigChar (c.toNat / 4096 % 16), hexDigChar (c.toNat / 256 % 16),
            hexDigChar (c.toNat / 16 % 16), hexDigChar (c.toNat % 16)] from rfl]
          simp only [List.cons_append, List.nil_append]
          unfold parseStringBody
          rw [if_neg (by decide), if_pos rfl]
          dsimp only
          rw [if_pos rfl]
          rw [hexDigitVal_hexDigChar _ (by omega), hexDigitVal_hexDigChar _ (by omega),
            hexDigitVal_hexDigChar _ (by omega), hexDigitVal_hexDigChar _ (by omega)]
          dsimp only
          have hn : ∀ a : Nat, a < 65536 →
              ((a / 4096 % 16 * 16 + a / 256 % 16) * 16 + a / 16 % 16) * 16 + a % 16 = a :=
            fun a ha => by omega
          rw [hn c.toNat hc]
          have hbmp : bmpScalar c.toNat = true := by
            unfold bmpScalar
            rcases char_valid_nat c with h | ⟨ha, hb⟩
            · simp
              omega
            · simp
              omega
          rw [if_pos hbmp, hih]
          dsimp only [Option.map]
          rw [Char.ofNat_toNat]

theorem skipWs_cons_not (c : Char) (t : List Char) (h : isWsChar c = false) :
    skipWs (c :: t) = c :: t := by
  unfold skipWs
  rw [List.dropWhile_cons, h]
  rfl

theorem parseValue_space (f : Nat) (x : List Char) :
    parseValue f (' ' :: x) = parseValue f x := by
  cases f with
  | zero => rfl
  | succ f =>
    have hws : skipWs (' ' :: x) = skipWs x := by
      unfold skipWs
      rw [List.dropWhile_cons]
      rfl
    unfold parseValue
    rw [hws]

theorem digit_not_ws (c : Char) (h : isDigitChar c = true) : isWsChar c = false := by
  rcases Bool.eq_false_or_eq_true (isWsChar c) with h0 | h0
  on_goal 2 => exact h0
  exfalso
  unfold isWsChar at h0
  rw [decide_eq_true_eq] at h0
  rcases h0 with rfl | rfl | rfl | rfl <;> exact absurd h (by decide)

theorem intDump_cons (i : Int) : ∃ c cs, intDump i = c :: cs ∧
    (c = '-' ∨ isDigitChar c = true) := by
  by_cases hneg : i < 0
  · refine ⟨'-', natDigits i.natAbs, ?_, Or.inl rfl⟩
    unfold intDump
    rw [if_pos hneg]
  · obtain ⟨c, cs, he, hdig, _⟩ := natDigits_cons i.natAbs
    refine ⟨c, cs, ?_, Or.inr hdig⟩
    unfold intDump
    rw [if_neg hneg]
    exact he

theorem num_head_props (c : Char) (h : c = '-' ∨ isDigitChar c = true) :
    isWsChar c = false ∧ (c ≠ 'n' ∧ c ≠ 't' ∧ c ≠ 'f') ∧
    (c ≠ '"' ∧ c ≠ '[' ∧ c ≠ lbraceChar) ∧ (c ≠ ']' ∧ c ≠ rbraceChar) := by
  rcases h with rfl | hd
  · refine ⟨rfl, ⟨?_, ?_, ?_⟩, ⟨?_, ?_, ?_⟩, ?_, ?_⟩ <;> decide
  · exact ⟨digit_not_ws c hd,
      ⟨char_ne_of_pred c 'n' hd (by decide), char_ne_of_pred c 't' hd (by decide),
       char_ne_of_pred c 'f' hd (by decide)⟩,
      ⟨char_ne_of_pred c '"' hd (by decide), char_ne_of_pred c '[' hd (by decide),
       char_ne_of_pred c lbraceChar hd (by decide)⟩,
      char_ne_of_pred c ']' hd (by decide), char_ne_of_pred c rbraceChar hd (by decide)⟩

/-- Serialised values never start with whitespace or a closing bracket. -/
theorem jsonDumps_head (j : Json) : ∃ c t, jsonDumps j = c :: t ∧ isWsChar c = false ∧
    c ≠ ']' ∧ c ≠ rbraceChar := by
  match j with
  | .null => refine ⟨'n', _, rfl, ?_, ?_, ?_⟩ <;> decide
  | .bool true => refine ⟨'t', _, rfl, ?_, ?_, ?_⟩ <;> decide
  | .bool false => refine ⟨'f', _, rfl, ?_, ?_, ?_⟩ <;> decide
  | .num i =>
    obtain ⟨c, cs, he, hp⟩ := intDump_cons i
    obtain ⟨hw, _, _, hne1, hne2⟩ := num_head_props c hp
    exact ⟨c, cs, by rw [show jsonDumps (.num i) = intDump i from rfl, he], hw, hne1, hne2⟩
  | .str s => refine ⟨'"', _, rfl, ?_, ?_, ?_⟩ <;> decide
  | .arr [] => refine ⟨'[', _, rfl, ?_, ?_, ?_⟩ <;> decide
  | .arr (v :: vs) => refine ⟨'[', _, rfl, ?_, ?_, ?_⟩ <;> decide
  | .obj [] => refine ⟨lbraceChar, _, rfl, ?_, ?_, ?_⟩ <;> decide
  | .obj (m :: ms) => refine ⟨lbraceChar, _, rfl, ?_, ?_, ?_⟩ <;> decide

theorem arrTail_head_boundary (vs : List Json) (rest : List Char) :
    numBoundary (dumpsArrTail vs ++ (']' :: rest)) := by
  cases vs with
  | nil => exact ⟨by decide, by decide, by decide, by decide⟩
  | cons v vs => exact ⟨by decide, by decide, by decide, by decide⟩

theorem objTail_head_boundary (ms : List (List Char × Json)) (rest : List Char) :
    numBoundary (dumpsObjTail ms ++ (rbraceChar :: rest)) := by
  cases ms with
  | nil => exact ⟨by decide, by decide, by decide, by decide⟩
  | cons m ms => exact ⟨by decide, by decide, by decide, by decide⟩

theorem parseMember_space (f : Nat) (x : List Char) :
    parseMember f (' ' :: x) = parseMember f x := by
  cases f with
  | zero => rfl
  | succ f =>
    have hws : skipWs (' ' :: x) = skipWs x := by
      unfold skipWs
      rw [List.dropWhile_cons]
      rfl
    unfold parseMember
    rw [hws]

theorem parseMember_dumps (k : List Char) (v : Json) (f : Nat) (rest : List Char)
    (hk : ∀ c ∈ k, c.toNat < 0x10000)
    (hval : ∀ f2 rest2, jweight v ≤ f2 → numBoundary rest2 →
      parseValue f2 (jsonDumps v ++ rest2) = some (v, rest2))
    (hf : 1 + jweight v ≤ f) (hb : numBoundary rest) :
    parseMember f (dumpMember (k, v) ++ rest) = some ((k, v), rest) := by
  obtain ⟨f, rfl⟩ : ∃ f2, f = f2 + 1 := ⟨f - 1, by omega⟩
  have hsplit : dumpMember (k, v) ++ rest =
      '"' :: (escapeString k ++ ('"' :: (':' :: ' ' :: (jsonDumps v ++ rest)))) := by
    show (('"' :: (escapeString k ++ ['"'])) ++ (':' :: ' ' :: jsonDumps v)) ++ rest = _
    simp [List.append_assoc]
  rw [hsplit]
  unfold parseMember
  rw [skipWs_cons_not _ _ (by decide)]
  dsimp only
  rw [if_pos rfl]
  rw [parseStringBody_escape k _ hk]
  dsimp only
  rw [skipWs_cons_not _ _ (by decide)]
  dsimp only
  rw [if_pos rfl]
  rw [parseValue_space]
  rw [hval f rest (by omega) hb]

theorem parseArrTail_dumps : ∀ (vs : List Json) (acc : List Json) (f : Nat) (rest : List Char),
    (∀ v ∈ vs, ∀ f2 rest2, jweight v ≤ f2 → numBoundary rest2 →
      parseValue f2 (jsonDumps v ++ rest2) = some (v, rest2)) →
    jweightArrTail vs ≤ f →
    parseArrTail f acc (dumpsArrTail vs ++ (']' :: rest)) = some (.arr (acc ++ vs), rest) := by
  intro vs
  induction vs with
  | nil =>
    intro acc f rest _ hf
    have h1 : jweightArrTail ([] : List Json) = 1 := rfl
    obtain ⟨f, rfl⟩ : ∃ f2, f = f2 + 1 := ⟨f - 1, by omega⟩
    show parseArrTail (f + 1) acc (']' :: rest) = some (.arr (acc ++ []), rest)
    unfold parseArrTail
    rw [skipWs_cons_not _ _ (by decide)]
    dsimp only
    rw [if_neg (by decide), if_pos rfl, List.append_nil]
  | cons v vs ih =>
    intro acc f rest helem hf
    have hjw : jweightArrTail (v :: vs) = 1 + max (jweight v) (jweightArrTail vs) := rfl
    rw [hjw] at hf
    obtain ⟨f, rfl⟩ : ∃ f2, f = f2 + 1 := ⟨f - 1, by omega⟩
    have hsplit : dumpsArrTail (v :: vs) ++ (']' :: rest) =
        ',' :: ' ' :: (jsonDumps v ++ (dumpsArrTail vs ++ (']' :: rest))) := by
      show (',' :: ' ' :: (jsonDumps v ++ dumpsArrTail vs)) ++ (']' :: rest) = _
      simp [List.append_assoc]
    rw [hsplit]
    unfold parseArrTail
    rw [skipWs_cons_not _ _ (by decide)]
    dsimp only
    rw [if_pos rfl]
    rw [parseValue_space]
    rw [helem v (by simp) f (dumpsArrTail vs ++ (']' :: rest)) (by omega)
      (arrTail_head_boundary vs rest)]
    dsimp only
    rw [ih (acc ++ [v]) f rest (fun v2 hv2 => helem v2 (by simp [hv2])) (by omega)]
    rw [List.append_assoc]
    rfl

theorem parseObjTail_dumps : ∀ (ms : List (List Char × Json))
    (acc : List (List Char × Json)) (f : Nat) (rest : List Char),
    (∀ m ∈ ms, ∀ f2 rest2, 1 + jweight m.2 ≤ f2 → numBoundary rest2 →
      parseMember f2 (dumpMember m ++ rest2) = some (m, rest2)) →
    jweightObjTail ms ≤ f →
    parseObjTail f acc (dumpsObjTail ms ++ (rbraceChar :: rest)) =
      some (.obj (acc ++ ms), rest) := by
  intro ms
  induction ms with
  | nil =>
    intro acc f rest _ hf
    have h1 : jweightObjTail ([] : List (List Char × Json)) = 1 := rfl
    obtain ⟨f, rfl⟩ : ∃ f2, f = f2 + 1 := ⟨f - 1, by omega⟩
    show parseObjTail (f + 1) acc (rbraceChar :: rest) = some (.obj (acc ++ []), rest)
    unfold parseObjTail
    rw [skipWs_cons_not _ _ (by decide)]
    dsimp only
    rw [if_neg (by decide), if_pos rfl, List.append_nil]
  | cons m ms ih =>
    intro acc f rest hmem hf
    have hjw : jweightObjTail (m :: ms) = 1 + max (1 + jweight m.2) (jweightObjTail ms) := rfl
    rw [hjw] at hf
    obtain ⟨f, rfl⟩ : ∃ f2, f = f2 + 1 := ⟨f - 1, by omega⟩
    have hsplit : dumpsObjTail (m :: ms) ++ (rbraceChar :: rest) =
        ',' :: ' ' :: (dumpMember m ++ (dumpsObjTail ms ++ (rbraceChar :: rest))) := by
      show (',' :: ' ' :: (dumpMember m ++ dumpsObjTail ms)) ++ (rbraceChar :: rest) = _
      simp [List.append_assoc]
    rw [hsplit]
    unfold parseObjTail
    rw [skipWs_cons_not _ _ (by decide)]
    dsimp only
    rw [if_pos rfl]
    rw [parseMember_space]
    rw [hmem m (by simp) f (dumpsObjTail ms ++ (rbraceChar :: rest)) (by omega)
      (objTail_head_boundary ms rest)]
    dsimp only
    rw [ih (acc ++ [m]) f rest (fun m2 hm2 => hmem m2 (by simp [hm2])) (by omega)]
    rw [List.append_assoc]
    rfl

theorem jsonWFList_mem : ∀ (vs : List Json), jsonWFList vs = true →
    ∀ v ∈ vs, jsonWF v = true := by
  intro vs
  induction vs with
  | nil =>
    intro _ v hv
    cases hv
  | cons a t ih =>
    intro h v hv
    have h2 : jsonWF a = true ∧ jsonWFList t = true := by
      have h3 : (jsonWF a && jsonWFList t) = true := h
      rw [Bool.and_eq_true] at h3
      exact h3
    rcases List.mem_cons.mp hv with rfl | hm
    · exact h2.1
    · exact ih h2.2 v hm

theorem jsonWFMembers_mem : ∀ (ms : List (List Char × Json)), jsonWFMembers ms = true →
    ∀ m ∈ ms, (∀ c ∈ m.1, c.toNat < 0x10000) ∧ jsonWF m.2 = true := by
  intro ms
  induction ms with
  | nil =>
    intro _ m hm
    cases hm
  | cons a t ih =>
    intro h m hm
    have h3 : ((a.1.all (fun c => decide (c.toNat < 0x10000)) && jsonWF a.2) &&
        jsonWFMembers t) = true := h
    rw [Bool.and_eq_true, Bool.and_eq_true] at h3
    rcases List.mem_cons.mp hm with rfl | hmem
    · refine ⟨?_, h3.1.2⟩
      intro c hc
      have h4 := h3.1.1
      rw [List.all_eq_true] at h4
      have h5 := h4 c hc
      rw [decide_eq_true_eq] at h5
      exact h5
    · exact ih h3.2 m hmem

/-- Main round-trip lemma: with enough fuel, parsing a serialised value
followed by a number boundary consumes exactly the serialised text. -/
theorem parseValue_dumps : ∀ (n : Nat) (j : Json), sizeOf j = n → jsonWF j = true →
    ∀ (f : Nat) (rest : List Char), jweight j ≤ f → numBoundary rest →
    parseValue f (jsonDumps j ++ rest) = some (j, rest) := by
  intro n
  induction n using Nat.strong_induction_on with
  | _ n ih =>
  intro j hsz hwf f rest hf hb
  cases j with
  | null =>
    have h1 : jweight Json.null = 1 := rfl
    obtain ⟨f, rfl⟩ : ∃ f2, f = f2 + 1 := ⟨f - 1, by omega⟩
    show parseValue (f + 1) ('n' :: 'u' :: 'l' :: 'l' :: rest) = some (.null, rest)
    unfold parseValue
    rw [skipWs_cons_not _ _ (by decide)]
    dsimp only
    rw [if_pos rfl]
    rw [if_pos (show List.take 3 ('u' :: 'l' :: 'l' :: rest) = "ull".toList from rfl)]
    rfl
  | bool b =>
    have h1 : jweight (Json.bool b) = 1 := rfl
    obtain ⟨f, rfl⟩ : ∃ f2, f = f2 + 1 := ⟨f - 1, by omega⟩
    cases b with
    | true =>
      show parseValue (f + 1) ('t' :: 'r' :: 'u' :: 'e' :: rest) = some (.bool true, rest)
      unfold parseValue
      rw [skipWs_cons_not _ _ (by decide)]
      dsimp only
      rw [if_neg (by decide), if_pos rfl]
      rw [if_pos (show List.take 3 ('r' :: 'u' :: 'e' :: rest) = "rue".toList from rfl)]
      rfl
    | false =>
      show parseValue (f + 1) ('f' :: 'a' :: 'l' :: 's' :: 'e' :: rest) =
        some (.bool false, rest)
      unfold parseValue
      rw [skipWs_cons_not _ _ (by decide)]
      dsimp only
      rw [if_neg (by decide), if_neg (by decide), if_pos rfl]
      rw [if_pos (show List.take 4 ('a' :: 'l' :: 's' :: 'e' :: rest) = "alse".toList from rfl)]
      rfl
  | num i =>
    have h1 : jweight (Json.num i) = 1 := rfl
    obtain ⟨f, rfl⟩ : ∃ f2, f = f2 + 1 := ⟨f - 1, by omega⟩
    obtain ⟨c, cs, he, hp⟩ := intDump_cons i
    obtain ⟨hw, ⟨hn, ht, hfc⟩, ⟨hq, hlb, hlcb⟩, _⟩ := num_head_props c hp
    show parseValue (f + 1) (intDump i ++ rest) = some (.num i, rest)
    rw [he, List.cons_append]
    unfold parseValue
    rw [skipWs_cons_not _ _ hw]
    dsimp only
    rw [if_neg hn, if_neg ht, if_neg hfc, if_neg hq, if_neg hlb, if_neg hlcb]
    rw [← List.cons_append, ← he, parseIntTok_intDump i rest hb]
    rfl
  | str s =>
    have h1 : jweight (Json.str s) = 1 := rfl
    obtain ⟨f, rfl⟩ : ∃ f2, f = f2 + 1 := ⟨f - 1, by omega⟩
    have hchars : ∀ c ∈ s, c.toNat < 0x10000 := by
      intro c hc
      have h2 : s.all (fun c => decide (c.toNat < 0x10000)) = true := hwf
      rw [List.all_eq_true] at h2
      have h3 := h2 c hc
      rw [decide_eq_true_eq] at h3
      exact h3
    have hsplit : jsonDumps (Json.str s) ++ rest =
        '"' :: (escapeString s ++ ('"' :: rest)) := by
      show ('"' :: (escapeString s ++ ['"'])) ++ rest = _
      simp [List.append_assoc]
    rw [hsplit]
    unfold parseValue
    rw [skipWs_cons_not _ _ (by decide)]
    dsimp only
    rw [if_neg (by decide), if_neg (by decide), if_neg (by decide), if_pos rfl]
    rw [parseStringBody_escape s rest hchars]
    rfl
  | arr vs =>
    cases vs with
    | nil =>
      have h1 : jweight (Json.arr []) = 1 := rfl
      obtain ⟨f, rfl⟩ : ∃ f2, f = f2 + 1 := ⟨f - 1, by omega⟩
      show parseValue (f + 1) ('[' :: ']' :: rest) = some (.arr [], rest)
      unfold parseValue
      rw [skipWs_cons_not _ _ (by decide)]
      dsimp only
      rw [if_neg (by decide), if_neg (by decide), if_neg (by decide), if_neg (by decide),
        if_pos rfl]
      rw [skipWs_cons_not _ _ (by decide)]
      dsimp only
      rw [if_pos rfl]
    | cons v vs =>
      have hjw : jweight (Json.arr (v :: vs)) =
          1 + max (jweight v) (jweightArrTail vs) := rfl
      rw [hjw] at hf
      obtain ⟨f, rfl⟩ : ∃ f2, f = f2 + 1 := ⟨f - 1, by omega⟩
      have hwf2 : jsonWF v = true ∧ jsonWFList vs = true := by
        have h3 : (jsonWF v && jsonWFList vs) = true := hwf
        rw [Bool.and_eq_true] at h3
        exact h3
      have hszv : sizeOf v < n := by
        rw [← hsz]
        simp
        omega
      have hv := ih (sizeOf v) hszv v rfl hwf2.1
      have helem : ∀ v2 ∈ vs, ∀ f2 rest2, jweight v2 ≤ f2 → numBoundary rest2 →
          parseValue f2 (jsonDumps v2 ++ rest2) = some (v2, rest2) := by
        intro v2 hv2 f2 rest2 hf2 hb2
        have hlt : sizeOf v2 < n := by
          rw [← hsz]
          have h4 := List.sizeOf_lt_of_mem hv2
          simp
          omega
        exact ih (sizeOf v2) hlt v2 rfl (jsonWFList_mem vs hwf2.2 v2 hv2) f2 rest2 hf2 hb2
      obtain ⟨c2, t2, hhead, hwsc, hne1, _⟩ := jsonDumps_head v
      have hsplit : jsonDumps (Json.arr (v :: vs)) ++ rest =
          '[' :: (c2 :: (t2 ++ (dumpsArrTail vs ++ (']' :: rest)))) := by
        show ('[' :: ((jsonDumps v ++ dumpsArrTail vs) ++ [']'])) ++ rest = _
        rw [hhead]
        simp [List.append_assoc]
      rw [hsplit]
      unfold parseValue
      rw [skipWs_cons_not _ _ (by decide)]
      dsimp only
      rw [if_neg (by decide), if_neg (by decide), if_neg (by decide), if_neg (by decide),
        if_pos rfl]
      rw [skipWs_cons_not _ _ hwsc]
      dsimp only
      rw [if_neg hne1]
      have hv2 : parseValue f (c2 :: (t2 ++ (dumpsArrTail vs ++ (']' :: rest)))) =
          some (v, dumpsArrTail vs ++ (']' :: rest)) := by
        have h5 := hv f (dumpsArrTail vs ++ (']' :: rest)) (by omega)
          (arrTail_head_boundary vs rest)
        rw [hhead, List.cons_append] at h5
        exact h5
      rw [hv2]
      dsimp only
      rw [parseArrTail_dumps vs [v] f rest helem (by omega)]
      rfl
  | obj ms =>
    cases ms with
    | nil =>
      have h1 : jweight (Json.obj []) = 1 := rfl
      obtain ⟨f, rfl⟩ : ∃ f2, f = f2 + 1 := ⟨f - 1, by omega⟩
      show parseValue (f + 1) (lbraceChar :: rbraceChar :: rest) = some (.obj [], rest)
      unfold parseValue
      rw [skipWs_cons_not _ _ (by decide)]
      dsimp only
      rw [if_neg (by decide), if_neg (by decide), if_neg (by decide), if_neg (by decide),
        if_neg (by decide), if_pos rfl]
      rw [skipWs_cons_not _ _ (by decide)]
      dsimp only
      rw [if_pos rfl]
    | cons m ms =>
      obtain ⟨k, v⟩ := m
      have hjw : jweight (Json.obj ((k, v) :: ms)) =
          1 + max (1 + jweight v) (jweightObjTail ms) := rfl
      rw [hjw] at hf
      obtain ⟨f, rfl⟩ : ∃ f2, f = f2 + 1 := ⟨f - 1, by omega⟩
      have hwf2 : ((k.all (fun c => decide (c.toNat < 0x10000)) && jsonWF v) &&
          jsonWFMembers ms) = true ∧
          decide ((((k, v) :: ms).map (fun m => m.1)).Nodup) = true := by
        have h3 : ((jsonWFMembers ((k, v) :: ms)) &&
            decide ((((k, v) :: ms).map (fun m => m.1)).Nodup)) = true := hwf
        rw [Bool.and_eq_true] at h3
        exact h3
      rw [Bool.and_eq_true, Bool.and_eq_true] at hwf2
      have hkbmp : ∀ c ∈ k, c.toNat < 0x10000 := by
        intro c hc
        have h4 := hwf2.1.1.1
        rw [List.all_eq_true] at h4
        have h5 := h4 c hc
        rw [decide_eq_true_eq] at h5
        exact h5
      have hszv : sizeOf v < n := by
        rw [← hsz]
        simp
        omega
      have hv := ih (sizeOf v) hszv v rfl hwf2.1.1.2
      have hmem : ∀ m2 ∈ ms, ∀ f2 rest2, 1 + jweight m2.2 ≤ f2 → numBoundary rest2 →
          parseMember f2 (dumpMember m2 ++ rest2) = some (m2, rest2) := by
        intro m2 hm2 f2 rest2 hf2 hb2
        obtain ⟨k2, v2⟩ := m2
        have hwk := jsonWFMembers_mem ms hwf2.1.2 (k2, v2) hm2
        have hlt : sizeOf v2 < n := by
          rw [← hsz]
          have h6 := List.sizeOf_lt_of_mem hm2
          simp at h6 ⊢
          omega
        exact parseMember_dumps k2 v2 f2 rest2 hwk.1
          (fun f3 rest3 hf3 hb3 => ih (sizeOf v2) hlt v2 rfl hwk.2 f3 rest3 hf3 hb3) hf2 hb2
      have hmm : parseMember f (dumpMember (k, v) ++ (dumpsObjTail ms ++ (rbraceChar :: rest))) =
          some ((k, v), dumpsObjTail ms ++ (rbraceChar :: rest)) :=
        parseMember_dumps k v f _ hkbmp (fun f3 r3 h3 b3 => hv f3 r3 h3 b3) (by omega)
          (objTail_head_boundary ms rest)
      obtain ⟨t, hdm⟩ : ∃ t, dumpMember (k, v) = '"' :: t := by
        refine ⟨(escapeString k ++ ['"']) ++ (':' :: ' ' :: jsonDumps v), ?_⟩
        show ('"' :: (escapeString k ++ ['"'])) ++ (':' :: ' ' :: jsonDumps v) = _
        rw [List.cons_append]
      have hsplit : jsonDumps (Json.obj ((k, v) :: ms)) ++ rest =
          lbraceChar :: (dumpMember (k, v) ++ (dumpsObjTail ms ++ (rbraceChar :: rest))) := by
        show (lbraceChar :: ((dumpMember (k, v) ++ dumpsObjTail ms) ++ [rbraceChar])) ++ rest = _
        simp [List.append_assoc]
      rw [hsplit]
      unfold parseValue
      rw [skipWs_cons_not _ _ (by decide)]
      dsimp only
      rw [if_neg (by decide), if_neg (by decide), if_neg (by decide), if_neg (by decide),
        if_neg (by decide), if_pos rfl]
      rw [hdm, List.cons_append]
      rw [skipWs_cons_not _ _ (by decide)]
      dsimp only
      rw [if_neg (by decide)]
      rw [← List.cons_append, ← hdm, hmm]
      dsimp only
      rw [parseObjTail_dumps ms [(k, v)] f rest hmem (by omega)]
      rfl

theorem natDigitsAux_ascii : ∀ (fuel n : Nat), ∀ c ∈ natDigitsAux fuel n, c.toNat < 128 := by
  intro fuel
  induction fuel with
  | zero =>
    intro n c hc
    cases n with
    | zero =>
      simp only [natDigitsAux, List.mem_singleton] at hc
      subst hc
      decide
    | succ m =>
      simp only [natDigitsAux, List.mem_singleton] at hc
      subst hc
      rw [digitChar_toNat _ (by omega)]
      omega
  | succ fuel ih =>
    intro n c hc
    cases n with
    | zero =>
      simp only [natDigitsAux, List.mem_singleton] at hc
      subst hc
      decide
    | succ m =>
      have he : natDigitsAux (fuel + 1) (m + 1) =
          if m + 1 < 10 then [Char.ofNat (48 + (m + 1))]
          else natDigitsAux fuel ((m + 1) / 10) ++ [Char.ofNat (48 + (m + 1) % 10)] := rfl
      rw [he] at hc
      by_cases hs : m + 1 < 10
      · rw [if_pos hs] at hc
        simp only [List.mem_singleton] at hc
        subst hc
        rw [digitChar_toNat _ hs]
        omega
      · rw [if_neg hs] at hc
        rw [List.mem_append] at hc
        rcases hc with hc | hc
        · exact ih _ c hc
        · simp only [List.mem_singleton] at hc
          subst hc
          rw [digitChar_toNat _ (by omega)]
          omega

theorem intDump_ascii (i : Int) : ∀ c ∈ intDump i, c.toNat < 128 := by
  intro c hc
  unfold intDump at hc
  split_ifs at hc
  · rcases List.mem_cons.mp hc with rfl | hc2
    · decide
    · exact natDigitsAux_ascii _ _ c hc2
  · exact natDigitsAux_ascii _ _ c hc

theorem hexDigChar_ascii (k : Nat) (h : k < 16) : (hexDigChar k).toNat < 128 := by
  interval_cases k <;> decide

theorem escapeChar_ascii (c : Char) : ∀ x ∈ escapeChar c, x.toNat < 128 := by
  intro x hx
  unfold escapeChar at hx
  split_ifs at hx with h1 h2 h3
  · simp only [List.mem_cons, List.not_mem_nil, or_false] at hx
    rcases hx with rfl | rfl <;> decide
  · simp only [List.mem_cons, List.not_mem_nil, or_false] at hx
    rcases hx with rfl | rfl <;> decide
  · simp only [List.mem_singleton] at hx
    subst hx
    omega
  · rcases List.mem_cons.mp hx with rfl | hxu
    · decide
    · rcases List.mem_cons.mp hxu with rfl | hxd
      · decide
      · have hxd2 : x ∈ [hexDigChar (c.toNat / 4096 % 16), hexDigChar (c.toNat / 256 % 16),
            hexDigChar (c.toNat / 16 % 16), hexDigChar (c.toNat % 16)] := hxd
        rcases List.mem_cons.mp hxd2 with rfl | hxd3
        · exact hexDigChar_ascii _ (by omega)
        · rcases List.mem_cons.mp hxd3 with rfl | hxd4
          · exact hexDigChar_ascii _ (by omega)
          · rcases List.mem_cons.mp hxd4 with rfl | hxd5
            · exact hexDigChar_ascii _ (by omega)
            · rcases List.mem_singleton.mp hxd5 with rfl
              exact hexDigChar_ascii _ (by omega)

theorem escapeString_ascii (s : List Char) : ∀ x ∈ escapeString s, x.toNat < 128 := by
  intro x hx
  unfold escapeString at hx
  rw [List.mem_flatten] at hx
  obtain ⟨l, hl, hxl⟩ := hx
  rw [List.mem_map] at hl
  obtain ⟨c, _, rfl⟩ := hl
  exact escapeChar_ascii c x hxl

theorem dumpString_ascii (s : List Char) : ∀ x ∈ dumpString s, x.toNat < 128 := by
  intro x hx
  unfold dumpString at hx
  rcases List.mem_cons.mp hx with rfl | hx2
  · decide
  · simp only [List.append_eq, List.mem_append] at hx2
    rcases hx2 with hx3 | hx3
    · exact escapeString_ascii s x hx3
    · simp only [List.mem_singleton] at hx3
      subst hx3
      decide

theorem dumpsArrTail_ascii (vs : List Json)
    (h : ∀ v ∈ vs, ∀ c ∈ jsonDumps v, c.toNat < 128) :
    ∀ c ∈ dumpsArrTail vs, c.toNat < 128 := by
  induction vs with
  | nil =>
    intro c hc
    cases hc
  | cons v t ih =>
    intro c hc
    have he : dumpsArrTail (v :: t) = ',' :: ' ' :: (jsonDumps v ++ dumpsArrTail t) := rfl
    rw [he] at hc
    rcases List.mem_cons.mp hc with rfl | hc2
    · decide
    · rcases List.mem_cons.mp hc2 with rfl | hc3
      · decide
      · rw [List.mem_append] at hc3
        rcases hc3 with hc4 | hc4
        · exact h v (by simp) c hc4
        · exact ih (fun v2 hv2 => h v2 (by simp [hv2])) c hc4

theorem dumpMember_ascii (k : List Char) (v : Json)
    (hv : ∀ c ∈ jsonDumps v, c.toNat < 128) :
    ∀ c ∈ dumpMember (k, v), c.toNat < 128 := by
  intro c hc
  have he : dumpMember (k, v) = dumpString k ++ (':' :: ' ' :: jsonDumps v) := rfl
  rw [he, List.mem_append] at hc
  rcases hc with hc2 | hc2
  · exact dumpString_ascii k c hc2
  · rcases List.mem_cons.mp hc2 with rfl | hc3
    · decide
    · rcases List.mem_cons.mp hc3 with rfl | hc4
      · decide
      · exact hv c hc4

theorem dumpsObjTail_ascii (ms : List (List Char × Json))
    (h : ∀ m ∈ ms, ∀ c ∈ jsonDumps m.2, c.toNat < 128) :
    ∀ c ∈ dumpsObjTail ms, c.toNat < 128 := by
  induction ms with
  | nil =>
    intro c hc
    cases hc
  | cons m t ih =>
    intro c hc
    have he : dumpsObjTail (m :: t) = ',' :: ' ' :: (dumpMember m ++ dumpsObjTail t) := rfl
    rw [he] at hc
    rcases List.mem_cons.mp hc with rfl | hc2
    · decide
    · rcases List.mem_cons.mp hc2 with rfl | hc3
      · decide
      · rw [List.mem_append] at hc3
        rcases hc3 with hc4 | hc4
        · obtain ⟨k2, v2⟩ := m
          exact dumpMember_ascii k2 v2 (h (k2, v2) (by simp)) c hc4
        · exact ih (fun m2 hm2 => h m2 (by simp [hm2])) c hc4

theorem jsonDumps_ascii_aux : ∀ (n : Nat) (j : Json), sizeOf j = n →
    ∀ c ∈ jsonDumps j, c.toNat < 128 := by
  intro n
  induction n using Nat.strong_induction_on with
  | _ n ih =>
  intro j hsz c hc
  cases j with
  | null => exact (by decide : ∀ x ∈ jsonDumps Json.null, x.toNat < 128) c hc
  | bool b =>
    cases b with
    | true => exact (by decide : ∀ x ∈ jsonDumps (Json.bool true), x.toNat < 128) c hc
    | false => exact (by decide : ∀ x ∈ jsonDumps (Json.bool false), x.toNat < 128) c hc
  | num i => exact intDump_ascii i c hc
  | str s => exact dumpString_ascii s c hc
  | arr vs =>
    cases vs with
    | nil => exact (by decide : ∀ x ∈ jsonDumps (Json.arr []), x.toNat < 128) c hc
    | cons v t =>
      have he : jsonDumps (Json.arr (v :: t)) =
          '[' :: ((jsonDumps v ++ dumpsArrTail t) ++ [']']) := rfl
      rw [he] at hc
      have helem : ∀ v2 ∈ v :: t, ∀ c2 ∈ jsonDumps v2, c2.toNat < 128 := by
        intro v2 hv2 c2 hc2
        have hlt : sizeOf v2 < n := by
          rw [← hsz]
          have h4 := List.sizeOf_lt_of_mem hv2
          simp at h4 ⊢
          omega
        exact ih (sizeOf v2) hlt v2 rfl c2 hc2
      rcases List.mem_cons.mp hc with rfl | hc2
      · decide
      · rw [List.mem_append] at hc2
        rcases hc2 with hc3 | hc3
        · rw [List.mem_append] at hc3
          rcases hc3 with hc4 | hc4
          · exact helem v (by simp) c hc4
          · exact dumpsArrTail_ascii t (fun v2 hv2 => helem v2 (by simp [hv2])) c hc4
        · simp only [List.mem_singleton] at hc3
          subst hc3
          decide
  | obj ms =>
    cases ms with
    | nil => exact (by decide : ∀ x ∈ jsonDumps (Json.obj []), x.toNat < 128) c hc
    | cons m t =>
      obtain ⟨k, v⟩ := m
      have he : jsonDumps (Json.obj ((k, v) :: t)) =
          lbraceChar :: ((dumpMember (k, v) ++ dumpsObjTail t) ++ [rbraceChar]) := rfl
      rw [he] at hc
      have helem : ∀ m2 ∈ (k, v) :: t, ∀ c2 ∈ jsonDumps m2.2, c2.toNat < 128 := by
        intro m2 hm2 c2 hc2
        obtain ⟨k2, v2⟩ := m2
        have hlt : sizeOf v2 < n := by
          rw [← hsz]
          have h4 := List.sizeOf_lt_of_mem hm2
          simp at h4 ⊢
          omega
        exact ih (sizeOf v2) hlt v2 rfl c2 hc2
      rcases List.mem_cons.mp hc with rfl | hc2
      · decide
      · rw [List.mem_append] at hc2
        rcases hc2 with hc3 | hc3
        · rw [List.mem_append] at hc3
          rcases hc3 with hc4 | hc4
          · exact dumpMember_ascii k v (helem (k, v) (by simp)) c hc4
          · exact dumpsObjTail_ascii t (fun m2 hm2 => helem m2 (by simp [hm2])) c hc4
        · simp only [List.mem_singleton] at hc3
          subst hc3
          decide

/-- With `ensure_ascii=True`, serialiser output is printable ASCII. -/
theorem jsonDumps_ascii (j : Json) : ∀ c ∈ jsonDumps j, c.toNat < 128 :=
  jsonDumps_ascii_aux (sizeOf j) j rfl

theorem jweightArrTail_le (vs : List Json)
    (h : ∀ v ∈ vs, jweight v ≤ (jsonDumps v).length) :
    jweightArrTail vs ≤ (dumpsArrTail vs).length + 1 := by
  induction vs with
  | nil =>
    have e1 : jweightArrTail ([] : List Json) = 1 := rfl
    rw [e1]
    omega
  | cons v t ih =>
    have h1 := h v (by simp)
    have h2 := ih (fun v2 hv2 => h v2 (by simp [hv2]))
    have e1 : jweightArrTail (v :: t) = 1 + max (jweight v) (jweightArrTail t) := rfl
    have e2 : dumpsArrTail (v :: t) = ',' :: ' ' :: (jsonDumps v ++ dumpsArrTail t) := rfl
    rw [e1, e2]
    simp only [List.length_cons, List.length_append]
    omega

theorem jweightObjTail_le (ms : List (List Char × Json))
    (h : ∀ m ∈ ms, 1 + jweight m.2 ≤ (dumpMember m).length) :
    jweightObjTail ms ≤ (dumpsObjTail ms).length + 1 := by
  induction ms with
  | nil =>
    have e1 : jweightObjTail ([] : List (List Char × Json)) = 1 := rfl
    rw [e1]
    omega
  | cons m t ih =>
    have h1 := h m (by simp)
    have h2 := ih (fun m2 hm2 => h m2 (by simp [hm2]))
    have e1 : jweightObjTail (m :: t) = 1 + max (1 + jweight m.2) (jweightObjTail t) := rfl
    have e2 : dumpsObjTail (m :: t) = ',' :: ' ' :: (dumpMember m ++ dumpsObjTail t) := rfl
    rw [e1, e2]
    simp only [List.length_cons, List.length_append]
    omega

theorem dumpMember_le (k : List Char) (v : Json)
    (h : jweight v ≤ (jsonDumps v).length) :
    1 + jweight v ≤ (dumpMember (k, v)).length := by
  have e : dumpMember (k, v) =
      ('"' :: (escapeString k ++ ['"'])) ++ (':' :: ' ' :: jsonDumps v) := rfl
  rw [e]
  simp only [List.length_append, List.length_cons, List.length_singleton]
  omega

/-- The fuel a parse needs is at most the length of the serialised text. -/
theorem jweight_le_len : ∀ (n : Nat) (j : Json), sizeOf j = n →
    jweight j ≤ (jsonDumps j).length := by
  intro n
  induction n using Nat.strong_induction_on with
  | _ n ih =>
  intro j hsz
  cases j with
  | null => decide
  | bool b => cases b <;> decide
  | num i =>
    obtain ⟨c, cs, he, _⟩ := intDump_cons i
    have e1 : jweight (Json.num i) = 1 := rfl
    have e2 : jsonDumps (Json.num i) = intDump i := rfl
    rw [e1, e2, he]
    simp
  | str s =>
    have e1 : jweight (Json.str s) = 1 := rfl
    have e2 : jsonDumps (Json.str s) = '"' :: (escapeString s ++ ['"']) := rfl
    rw [e1, e2]
    simp
  | arr vs =>
    cases vs with
    | nil => decide
    | cons v t =>
      have helem : ∀ v2 ∈ v :: t, jweight v2 ≤ (jsonDumps v2).length := by
        intro v2 hv2
        have hlt : sizeOf v2 < n := by
          rw [← hsz]
          have h4 := List.sizeOf_lt_of_mem hv2
          simp at h4 ⊢
          omega
        exact ih (sizeOf v2) hlt v2 rfl
      have h1 := helem v (by simp)
      have h2 := jweightArrTail_le t (fun v2 hv2 => helem v2 (by simp [hv2]))
      have e1 : jweight (Json.arr (v :: t)) = 1 + max (jweight v) (jweightArrTail t) := rfl
      have e2 : jsonDumps (Json.arr (v :: t)) =
          '[' :: ((jsonDumps v ++ dumpsArrTail t) ++ [']']) := rfl
      rw [e1, e2]
      simp only [List.length_cons, List.length_append, List.length_singleton]
      omega
  | obj ms =>
    cases ms with
    | nil => decide
    | cons m t =>
      have helem : ∀ m2 ∈ m :: t, 1 + jweight m2.2 ≤ (dumpMember m2).length := by
        intro m2 hm2
        obtain ⟨k2, v2⟩ := m2
        have hlt : sizeOf v2 < n := by
          rw [← hsz]
          have h4 := List.sizeOf_lt_of_mem hm2
          simp at h4 ⊢
          omega
        exact dumpMember_le k2 v2 (ih (sizeOf v2) hlt v2 rfl)
      have h1 := helem m (by simp)
      have h2 := jweightObjTail_le t (fun m2 hm2 => helem m2 (by simp [hm2]))
      have e1 : jweight (Json.obj (m :: t)) =
          1 + max (1 + jweight m.2) (jweightObjTail t) := rfl
      have e2 : jsonDumps (Json.obj (m :: t)) =
          lbraceChar :: ((dumpMember m ++ dumpsObjTail t) ++ [rbraceChar]) := rfl
      rw [e1, e2]
      simp only [List.length_cons, List.length_append, List.length_singleton]
      omega

/-- Python level round-trip: `json.loads(json.dumps(j)) == j` for every
well-formed value. -/
theorem jsonLoads_dumps (j : Json) (hwf : jsonWF j = true) :
    jsonLoads (jsonDumps j) = some j := by
  have h := parseValue_dumps (sizeOf j) j rfl hwf ((jsonDumps j).length + 1) []
    (by have h2 := jweight_le_len (sizeOf j) j rfl; omega) trivial
  rw [List.append_nil] at h
  unfold jsonLoads
  rw [h]
  rfl

theorem utf8EncodeChar_lt (c : Char) : ∀ b ∈ utf8EncodeChar c, b < 256 := by
  intro b hb
  have hv := char_valid_nat c
  unfold utf8EncodeChar at hb
  dsimp only at hb
  split_ifs at hb with h1 h2 h3 <;>
    simp only [List.mem_cons, List.not_mem_nil, or_false] at hb
  · subst hb
    omega
  · rcases hb with rfl | rfl <;> omega
  · rcases hb with rfl | rfl | rfl <;> omega
  · rcases hb with rfl | rfl | rfl | rfl <;> omega

/-- UTF-8 encoding produces bytes. -/
theorem utf8Encode_lt (s : List Char) : ∀ b ∈ utf8Encode s, b < 256 := by
  intro b hb
  unfold utf8Encode at hb
  rw [List.mem_flatten] at hb
  obtain ⟨l, hl, hbl⟩ := hb
  rw [List.mem_map] at hl
  obtain ⟨c, _, rfl⟩ := hl
  exact utf8EncodeChar_lt c b hbl

/-- C8 counterexample: decrypting the encryption of the empty string with
JSON re-parsing raises `EncryptionError` (the plaintext is not valid
JSON), refuting the unconditional round-trip; and tampering the
ciphertext `"gGFiY2Q="` of the string `"abcd"` into `"gGFiY2R="` (a
single character changed, same length) decrypts without error to the
original plaintext, because `base64.b64decode` ignores the trailing bits
of the final symbol - refuting that a one-character tamper always raises
`EncryptionError`. -/
theorem EncryptionManager.decrypt_tamper_counterexample :
    EncryptionManager.decrypt fernetDemo
        (EncryptionManager.encrypt fernetDemo (.str [])) true = .error .encryptionError ∧
    EncryptionManager.encrypt fernetDemo (.str "abcd".toList) = "gGFiY2Q=".toList ∧
    "gGFiY2R=".toList ≠ "gGFiY2Q=".toList ∧
    ("gGFiY2R=".toList).length = ("gGFiY2Q=".toList).length ∧
    EncryptionManager.decrypt fernetDemo "gGFiY2R=".toList false = .ok (.str "abcd".toList) :=
  ⟨rfl, rfl, by decide, rfl, rfl⟩

/-- C8 amended: under every Fernet model (byte-valued tokens, decryption
inverting encryption), `decrypt(encrypt(x), return_json=True)` returns
exactly `x` for every well-formed JSON value `x`, empty objects and
empty JSON strings included; and `decrypt(encrypt(s), return_json=False)`
returns every ASCII string `s` unchanged. A raw string payload
decrypted with `return_json=True` is instead re-parsed as JSON and need
not round-trip. -/
theorem EncryptionManager.decrypt_encrypt_roundtrip (fm : FernetModel) :
    (∀ j : Json, jsonWF j = true →
      EncryptionManager.decrypt fm (EncryptionManager.encrypt fm (.json j)) true =
        .ok (.json j)) ∧
    (∀ s : List Char, (∀ c ∈ s, c.toNat < 128) →
      EncryptionManager.decrypt fm (EncryptionManager.encrypt fm (.str s)) false =
        .ok (.str s)) := by
  constructor
  · intro j hwf
    unfold EncryptionManager.encrypt EncryptionManager.decrypt
    dsimp only
    rw [b64Decode_b64Encode _ (fm.enc_bytes _ (utf8Encode_lt _))]
    dsimp only
    rw [fm.dec_enc]
    dsimp only
    rw [utf8_ascii_roundtrip _ (jsonDumps_ascii j)]
    dsimp only
    rw [if_pos rfl]
    rw [jsonLoads_dumps j hwf]
  · intro s hs
    unfold EncryptionManager.encrypt EncryptionManager.decrypt
    dsimp only
    rw [b64Decode_b64Encode _ (fm.enc_bytes _ (utf8Encode_lt _))]
    dsimp only
    rw [fm.dec_enc]
    dsimp only
    rw [utf8_ascii_roundtrip _ hs]
    dsimp only
    rw [if_neg (by decide)]

/-- C8 amended witness: the round-trip evaluated at the demo Fernet
instance, on the empty object and on the string `"ok"`. -/
theorem EncryptionManager.decrypt_encrypt_roundtrip_witness :
    EncryptionManager.decrypt fernetDemo
        (EncryptionManager.encrypt fernetDemo (.json (.obj []))) true = .ok (.json (.obj [])) ∧
    EncryptionManager.decrypt fernetDemo
        (EncryptionManager.encrypt fernetDemo (.str "ok".toList)) false =
      .ok (.str "ok".toList) :=
  ⟨(EncryptionManager.decrypt_encrypt_roundtrip fernetDemo).1 (.obj []) (by decide),
   (EncryptionManager.decrypt_encrypt_roundtrip fernetDemo).2 "ok".toList (by decide)⟩

